import Mathlib

/-!
# memtest.c : size sweep, pointer chains, index scan and start/stop barrier

A shallow embedding of `src/memtest.c` (LP64: `unsigned` is 32 bits wide,
`unsigned long` and `void *` are 64 bits wide) and the properties of it that
were checked.  Unsigned arithmetic is modelled on `Nat` with an explicit
reduction modulo `2 ^ 32` or `2 ^ 64`; loops carry a fuel argument and a run
that exhausts its fuel yields `none`.  `malloc` refuses a request above
`PTRDIFF_MAX`, as the C library of the platform does.
-/

namespace Memtest

/-! ## Platform constants and the configuration record -/

/-- Number of values of an `unsigned long`. -/
def ULONG_MOD : Nat := 2 ^ 64

/-- Number of values of an `unsigned`. -/
def UINT_MOD : Nat := 2 ^ 32

/-- Value of `sizeof(void *)`. -/
def SIZEOF_PTR : Nat := 8

/-- Largest size of an object, `PTRDIFF_MAX`. -/
def PTRDIFF_MAX : Nat := 2 ^ 63 - 1

/-- Value of the macro `MIN_SIZE`. -/
def MIN_SIZE : Nat := 512

/-- The option variables `opt_*` after the `getopt_long` loop. -/
structure Config where
  opt_line_sz : Nat
  opt_accesses : Nat
  opt_stride : Nat
  opt_max_size : Nat
  opt_forward : Bool
  opt_index_based : Bool
  opt_concurrent : Bool
  deriving DecidableEq, Repr

/-- Every option variable holds a value of its C type. -/
def Config.InRange (c : Config) : Prop :=
  c.opt_line_sz < UINT_MOD ∧ c.opt_accesses < ULONG_MOD ∧
  c.opt_stride < UINT_MOD ∧ c.opt_max_size < ULONG_MOD

instance (c : Config) : Decidable c.InRange := by
  unfold Config.InRange; infer_instance

/-- The checks at the end of `parse_command_line` (lines 91-119): `true` when
none of them calls `usage`. -/
def parse_command_line (c : Config) : Bool :=
  if c.opt_line_sz = 0 then false
  else if c.opt_max_size < MIN_SIZE then false
  else if c.opt_max_size < c.opt_stride then false
  else if c.opt_stride % c.opt_line_sz ≠ 0 then false
  else if !c.opt_index_based && decide (c.opt_stride < SIZEOF_PTR) then false
  else true

/-! ## The size sweep -/

/-- The loop `for (s = 4 * 1024; s <= size; s *= 2);` of `step`, entered with
the current value of `s`. -/
def step_loop (size : Nat) : Nat → Nat → Option Nat
  | 0, _ => none
  | fuel + 1, s => if s ≤ size then step_loop size fuel (s * 2 % ULONG_MOD) else some s

/-- The statement `size = ((size - 1) / opt_line_sz + 1) * opt_line_sz;` of
`step`; a zero divisor has no result. -/
def round_line (opt_line_sz size : Nat) : Option Nat :=
  if opt_line_sz = 0 then none
  else some ((((size + ULONG_MOD - 1) % ULONG_MOD) / opt_line_sz + 1) * opt_line_sz % ULONG_MOD)

/-- The function `step`. -/
def step (opt_line_sz fuel size : Nat) : Option Nat :=
  if size < 1024 then round_line opt_line_sz (size * 2 % ULONG_MOD)
  else if size < 4 * 1024 then round_line opt_line_sz ((size + 1024) % ULONG_MOD)
  else
    match step_loop size fuel (4 * 1024) with
    | none => none
    | some s => round_line opt_line_sz ((size + s / 4) % ULONG_MOD)

/-- Initial value of `size` in the loop of `run_test`. -/
def first_size (c : Config) : Nat :=
  if MIN_SIZE < c.opt_stride then c.opt_stride else MIN_SIZE

/-- The values the loop header of `run_test` gives to `size` in its first `n`
iterations when every call of `scan` returns: the first size, then `step` of
the previous one, as long as the size is at most `opt_max_size`.  The sizes a
run really hands to `scan` are among these (see `run_test` below). -/
def size_sequence (c : Config) (stepFuel : Nat) : Nat → Nat → List Nat
  | 0, _ => []
  | n + 1, size =>
    if size ≤ c.opt_max_size then
      size :: (match step c.opt_line_sz stepFuel size with
               | none => []
               | some size1 => size_sequence c stepFuel n size1)
    else []

/-- The growth rule of section 4.1 of the specification applied to the size `s`,
before rounding; `q` is the power of two of its third case. -/
def candidate (s q : Nat) : Nat :=
  if s < 1024 then 2 * s else if s < 4096 then s + 1024 else s + q / 4


/-! ## Concrete configurations used below -/

/-- The configuration of the end-to-end scenario of the specification. -/
def cfg_scenario : Config := ⟨64, 1000, 512, 4096, false, false, false⟩

/-- The scenario's configuration with `opt_max_size` raised to `2 ^ 63`. -/
def cfg_huge : Config := ⟨64, 1000, 512, 2 ^ 63, false, false, false⟩

/-- A pointer-mode configuration whose line size does not divide `MIN_SIZE`. -/
def cfg_line96 : Config := ⟨96, 1000, 96, 512, false, false, false⟩


/-! ## The buffer and the pointer chains

The buffer is a map from byte offsets to bytes.  A stored pointer occupies
`SIZEOF_PTR` consecutive bytes; each of them records which pointer it belongs
to and which of its bytes it is, so that a load yields a pointer only when all
the bytes it reads were written by one and the same store.  The pointer
`&mem[t]` is represented by the offset `t`.  The map has no end: a store that
reaches past the `opt_max_size` bytes of the buffer is not detected. -/

/-- One byte of the buffer. -/
inductive MemByte where
  /-- A byte that is not part of a stored pointer. -/
  | data (v : Nat)
  /-- Byte number `idx` of the stored pointer `&mem[target]`. -/
  | ptr (target idx : Nat)
  deriving DecidableEq, Repr

/-- Contents of the buffer `mem`, by byte offset. -/
abbrev Mem := Nat → MemByte

/-- The store `*(void **)&mem[addr] = (void *)&mem[target]`. -/
def store_ptr (mem : Mem) (addr target : Nat) : Mem :=
  fun a => if addr ≤ a ∧ a < addr + SIZEOF_PTR then MemByte.ptr target (a - addr) else mem a

/-- The load `*(void **)&mem[addr]`: the offset the loaded pointer points to,
or `none` when the bytes read are not those of one stored pointer. -/
def load_ptr (mem : Mem) (addr : Nat) : Option Nat :=
  match mem addr with
  | MemByte.ptr target _ =>
    if ∀ k < SIZEOF_PTR, mem (addr + k) = MemByte.ptr target k then some target else none
  | MemByte.data _ => none

/-- A loop `for (; i < bound; i += opt_line_sz) *(void **)&mem[addr i] = (void *)&mem[val i];`
entered with the current `i`; it yields the final `i` and the buffer. -/
def pointer_loop (line_sz bound : Nat) (addr val : Nat → Nat) :
    Nat → Nat → Mem → Option (Nat × Mem)
  | 0, _, _ => none
  | fuel + 1, i, mem =>
    if i < bound then
      pointer_loop line_sz bound addr val fuel ((i + line_sz) % ULONG_MOD)
        (store_ptr mem (addr i) (val i))
    else some (i, mem)

/-- The function `compute_forward_pointers`: its two loops share `i`. (With a
zero stride the second loop has no iteration, so `%` is never applied to a
zero divisor.) -/
def compute_forward_pointers (c : Config) (size fuel : Nat) (mem : Mem) : Option Mem :=
  match pointer_loop c.opt_line_sz ((size + ULONG_MOD - c.opt_stride) % ULONG_MOD)
      (fun i => i) (fun i => (i + c.opt_stride) % ULONG_MOD) fuel 0 mem with
  | none => none
  | some (i, mem1) =>
    match pointer_loop c.opt_line_sz size
        (fun i => i) (fun i => (i + c.opt_line_sz) % ULONG_MOD % c.opt_stride) fuel i mem1 with
    | none => none
    | some (_, mem2) => some mem2

/-- The function `compute_backward_pointers`. -/
def compute_backward_pointers (c : Config) (size fuel : Nat) (mem : Mem) : Option Mem :=
  match pointer_loop c.opt_line_sz ((size + ULONG_MOD - c.opt_stride) % ULONG_MOD)
      (fun i => (i + c.opt_stride) % ULONG_MOD) (fun i => i) fuel 0 mem with
  | none => none
  | some (i, mem1) =>
    match pointer_loop c.opt_line_sz size
        (fun i => (i + c.opt_line_sz) % ULONG_MOD % c.opt_stride) (fun i => i) fuel i mem1 with
    | none => none
    | some (_, mem2) => some mem2

/-- The chain construction at the start of `scan` in pointer mode. -/
def compute_pointers (c : Config) (size fuel : Nat) (mem : Mem) : Option Mem :=
  if c.opt_forward then compute_forward_pointers c size fuel mem
  else compute_backward_pointers c size fuel mem

/-- The value of `ptr` after `n` rounds of `ptr = *ptr`, starting from `&mem[start]`. -/
def chase (mem : Mem) : Nat → Nat → Option Nat
  | 0, start => some start
  | n + 1, start =>
    match load_ptr mem start with
    | none => none
    | some next => chase mem n next

/-- The loop of `pointer_scan` run for `accesses` rounds: the final `ptr`. -/
def pointer_scan (mem : Mem) (accesses : Nat) : Option Nat :=
  chase mem accesses 0

/-- A buffer without any stored pointer. -/
def blank : Mem := fun _ => MemByte.data 0

/-- Forward configuration with line size 64 and stride 512. -/
def cfg_forward : Config := ⟨64, 1000, 512, 4096, true, false, false⟩

/-- Forward configuration with line size 4 and stride 8. -/
def cfg_line4 : Config := ⟨4, 1000, 8, 512, true, false, false⟩


/-! ## The chain on line indices

Proof-side description of the chains: with `m = stride / line size` and `N`
the number of lines of the prefix, line `x` is followed by `chain_next m N x`. -/

/-- Successor of line `x` in the forward chain over `N` lines with `m` lines per stride. -/
def chain_next (m N x : Nat) : Nat :=
  if x + m < N then x + m else (x + 1) % m

/-- Position of line `x` on the forward chain that starts at line 0. -/
def chain_rank (m N x : Nat) : Nat :=
  (x % m) * (N / m) + min (x % m) (N % m) + x / m


/-- Number of lines of the prefix of `size` bytes: `ceil(size / line size)`. -/
def line_count (c : Config) (size : Nat) : Nat :=
  (size + c.opt_line_sz - 1) / c.opt_line_sz

/-- Number of lines per stride, `stride / line size`. -/
def lines_per_stride (c : Config) : Nat :=
  c.opt_stride / c.opt_line_sz


/-! ## The index-based scan -/

/-- The declaration `unsigned noffsets = opt_stride / opt_line_sz;` (no value for a zero
divisor). -/
def index_scan_noffsets (c : Config) : Option Nat :=
  if c.opt_line_sz = 0 then none else some (c.opt_stride / c.opt_line_sz)

/-- The declaration `unsigned long nreads = size / opt_stride;` (no value for a zero
divisor). -/
def index_scan_nreads (c : Config) (size : Nat) : Option Nat :=
  if c.opt_stride = 0 then none else some (size / c.opt_stride)

/-- The declaration `unsigned long repetitions = (opt_accesses - 1) / (nreads * noffsets) + 1;`
(no value for a zero divisor). -/
def index_scan_repetitions (c : Config) (size : Nat) : Option Nat :=
  match index_scan_noffsets c, index_scan_nreads c size with
  | some noffsets, some nreads =>
    if nreads * noffsets % ULONG_MOD = 0 then none
    else some ((((c.opt_accesses + ULONG_MOD - 1) % ULONG_MOD)
      / (nreads * noffsets % ULONG_MOD) + 1) % ULONG_MOD)
  | _, _ => none

/-- The declaration `unsigned long accesses = repetitions * noffsets * nreads;`, the
divisor of the elapsed time. -/
def index_scan_accesses (c : Config) (size : Nat) : Option Nat :=
  match index_scan_noffsets c, index_scan_nreads c size, index_scan_repetitions c size with
  | some noffsets, some nreads, some repetitions =>
    some (repetitions * noffsets % ULONG_MOD * nreads % ULONG_MOD)
  | _, _, _ => none

/-- The loop `for (j = offset; j < size; j += opt_stride) total += *(long *)(mem + j);`
entered with the current `j`; `reads` counts the reads executed so far. -/
def index_scan_inner (c : Config) (size : Nat) : Nat → Nat → Nat → Option Nat
  | 0, _, _ => none
  | fuel + 1, j, reads =>
    if j < size then index_scan_inner c size fuel ((j + c.opt_stride) % ULONG_MOD) (reads + 1)
    else some reads

/-- The loop `for (offset = 0; offset < opt_stride; offset += opt_line_sz)`
entered with the current `offset`. -/
def index_scan_middle (c : Config) (size fuel : Nat) : Nat → Nat → Nat → Option Nat
  | 0, _, _ => none
  | k + 1, offset, reads =>
    if offset < c.opt_stride then
      match index_scan_inner c size fuel offset reads with
      | none => none
      | some reads1 =>
        index_scan_middle c size fuel k ((offset + c.opt_line_sz) % UINT_MOD) reads1
    else some reads

/-- The loop `for (i = 0; i < repetitions; i++)` entered with the current `i`. -/
def index_scan_outer (c : Config) (size fuel repetitions : Nat) : Nat → Nat → Nat → Option Nat
  | 0, _, _ => none
  | k + 1, i, reads =>
    if i < repetitions then
      match index_scan_middle c size fuel fuel 0 reads with
      | none => none
      | some reads1 => index_scan_outer c size fuel repetitions k ((i + 1) % ULONG_MOD) reads1
    else some reads

/-- The function `index_scan` without its clock: the divisor `accesses` and
the number of reads of the buffer that the three loops executed. -/
def index_scan (c : Config) (size fuel : Nat) : Option (Nat × Nat) :=
  match index_scan_repetitions c size, index_scan_accesses c size with
  | some repetitions, some accesses =>
    match index_scan_outer c size fuel repetitions fuel 0 0 with
    | none => none
    | some reads => some (accesses, reads)
  | _, _ => none

/-- Index-mode configuration with line size 64 and stride 2048. -/
def cfg_index2048 : Config := ⟨64, 1000, 2048, 4096, false, true, false⟩

/-- Index-mode configuration with stride 0. -/
def cfg_stride0 : Config := ⟨64, 1000, 0, 4096, false, true, false⟩

/-- Index-mode configuration asking for no access at all. -/
def cfg_access0 : Config := ⟨64, 0, 512, 4096, false, true, false⟩

/-- Index-mode configuration asking for `2 ^ 64 - 1` accesses. -/
def cfg_access_max : Config := ⟨64, 2 ^ 64 - 1, 512, 4096, false, true, false⟩

/-- Index-mode variant of the end-to-end scenario. -/
def cfg_index : Config := ⟨64, 1000, 512, 4096, false, true, false⟩


/-- The number of reads per pass that `index_scan` accounts for, `nreads * noffsets`. -/
def pass_reads (c : Config) (size : Nat) : Nat :=
  size / c.opt_stride * (c.opt_stride / c.opt_line_sz)


/-! ## The run of one thread -/

/-- The call `malloc(n)`: `heap` is the block the allocator has to offer, if
any, with its previous contents; a request for more than `PTRDIFF_MAX` bytes
fails. -/
def malloc (heap : Option Mem) (n : Nat) : Option Mem :=
  if PTRDIFF_MAX < n then none else heap

/-- The function `warmup_memory`: it reads every word of the buffer and stores nothing. -/
def warmup_memory (mem : Mem) (_size : Nat) : Mem := mem

/-- The function `scan` without its barrier (modelled further down; the
barrier touches neither `size` nor the buffer): the buffer after the scan,
or `none` when the scan does not return, because it divides by zero, loads a
pointer from bytes that are not those of one stored pointer, or never ends. -/
def scan (c : Config) (size fuel : Nat) (mem : Mem) : Option Mem :=
  if c.opt_index_based then
    match index_scan c size fuel with
    | none => none
    | some _ => some mem
  else
    match compute_pointers c size fuel mem with
    | none => none
    | some mem1 =>
      match pointer_scan mem1 c.opt_accesses with
      | none => none
      | some _ => some mem1

/-- What a run of `run_test` did: the sizes it handed to `scan`, in order, and
whether it reached the end of its loop. -/
structure Run where
  tested : List Nat
  finished : Bool
  deriving DecidableEq, Repr

/-- The loop of `run_test` (lines 303-311) entered with the current `size`,
followed for at most `n` iterations. -/
def run_loop (c : Config) (fuel : Nat) : Nat → Nat → Mem → Run
  | 0, _, _ => ⟨[], false⟩
  | n + 1, size, mem =>
    if size ≤ c.opt_max_size then
      match scan c size fuel mem with
      | none => ⟨[size], false⟩
      | some mem1 =>
        match step c.opt_line_sz fuel size with
        | none => ⟨[size], false⟩
        | some size1 =>
          let rest := run_loop c fuel n size1 mem1
          ⟨size :: rest.tested, rest.finished⟩
    else ⟨[], true⟩

/-- The function `run_test`: it exits before its loop when `malloc` fails. -/
def run_test (c : Config) (heap : Option Mem) (fuel n : Nat) : Run :=
  match malloc heap c.opt_max_size with
  | none => ⟨[], false⟩
  | some mem => run_loop c fuel n (first_size c) (warmup_memory mem c.opt_max_size)

/-- Backward configuration with line size 4 and stride 8. -/
def cfg_line4_back : Config := ⟨4, 1000, 8, 512, false, false, false⟩


/-! ## The start/stop barrier of `scan`

Two threads run `scan` once per size of the same sweep with `opt_concurrent`
set.  The accesses to `ready` are sequentially consistent atomic loads and
stores, so an execution is an interleaving of the threads' steps; a schedule
lists which thread takes each step.  Thread `false` is the thread with id 0,
thread `true` the one with id 1, and `!id` stands for `id ^ 1`. -/

/-- Where a thread stands in `run_test` and `scan`. -/
inductive Pc where
  /-- At the loop test of `run_test`, then building the chain in `scan`. -/
  | build
  /-- Before `__atomic_store_n(&ready[id], 1, __ATOMIC_SEQ_CST)`. -/
  | store_start
  /-- Before a load of `ready[id ^ 1]` in the first `while`. -/
  | spin_start
  /-- Running `index_scan` or `pointer_scan`. -/
  | timed
  /-- Before `__atomic_store_n(&ready[id ^ 1], 0, __ATOMIC_SEQ_CST)`. -/
  | store_end
  /-- Before a load of `ready[id]` in the second `while`. -/
  | spin_end
  /-- After the loop of `run_test`. -/
  | finished
  deriving DecidableEq, Repr

/-- State of one thread: the number of scans it has completed and its position. -/
structure Thread where
  scan_no : Nat
  pc : Pc
  deriving DecidableEq, Repr

/-- The steps of the barrier that the claim speaks about. -/
inductive Event where
  /-- Thread `id` executed the store `ready[id] = 1` of its scan number `k`. -/
  | set_ready (id : Bool) (k : Nat)
  /-- Thread `id` left the first `while` of its scan number `k`. -/
  | leave_start (id : Bool) (k : Nat)
  deriving DecidableEq, Repr

/-- The array `ready`, the two threads and the events so far, latest first. -/
structure World where
  ready : Bool → Nat
  thread : Bool → Thread
  log : List Event

/-- Both flags 0, both threads at the start of `run_test`. -/
def World.init : World :=
  ⟨fun _ => 0, fun _ => ⟨0, Pc.build⟩, []⟩

/-- One step of thread `id`; `nscans` is the number of sizes of the sweep. -/
def thread_step (nscans : Nat) (id : Bool) (w : World) : World :=
  let t := w.thread id
  match t.pc with
  | Pc.build =>
    if t.scan_no < nscans then
      { w with thread := Function.update w.thread id ⟨t.scan_no, Pc.store_start⟩ }
    else { w with thread := Function.update w.thread id ⟨t.scan_no, Pc.finished⟩ }
  | Pc.store_start =>
    { ready := Function.update w.ready id 1
      thread := Function.update w.thread id ⟨t.scan_no, Pc.spin_start⟩
      log := Event.set_ready id t.scan_no :: w.log }
  | Pc.spin_start =>
    if w.ready (!id) ≠ 0 then
      { w with
        thread := Function.update w.thread id ⟨t.scan_no, Pc.timed⟩
        log := Event.leave_start id t.scan_no :: w.log }
    else w
  | Pc.timed => { w with thread := Function.update w.thread id ⟨t.scan_no, Pc.store_end⟩ }
  | Pc.store_end =>
    { w with
      ready := Function.update w.ready (!id) 0
      thread := Function.update w.thread id ⟨t.scan_no, Pc.spin_end⟩ }
  | Pc.spin_end =>
    if w.ready id = 0 then
      { w with thread := Function.update w.thread id ⟨t.scan_no + 1, Pc.build⟩ }
    else w
  | Pc.finished => w

/-- The state after the steps of a schedule. -/
def run_schedule (nscans : Nat) (schedule : List Bool) (w : World) : World :=
  schedule.foldl (fun w id => thread_step nscans id w) w

/-- Whether a thread at `pc` has executed the store `ready[id] = 1` of its current scan. -/
def Pc.set_count : Pc → Nat
  | Pc.build => 0
  | Pc.store_start => 0
  | Pc.finished => 0
  | Pc.spin_start => 1
  | Pc.timed => 1
  | Pc.store_end => 1
  | Pc.spin_end => 1

/-- Whether a thread at `pc` has executed the store `ready[id ^ 1] = 0` of its current scan. -/
def Pc.clear_count : Pc → Nat
  | Pc.spin_end => 1
  | Pc.build => 0
  | Pc.store_start => 0
  | Pc.finished => 0
  | Pc.spin_start => 0
  | Pc.timed => 0
  | Pc.store_end => 0

/-- Number of stores `ready[id] = 1` a thread in state `t` has executed. -/
def sets_done (t : Thread) : Nat :=
  t.scan_no + t.pc.set_count

/-- Number of stores `ready[id ^ 1] = 0` a thread in state `t` has executed. -/
def clears_done (t : Thread) : Nat :=
  t.scan_no + t.pc.clear_count

/-- In a log (latest event first), every exit from the first `while` is
preceded by the other thread's store of the same scan. -/
def log_ok : List Event → Prop
  | [] => True
  | Event.leave_start id k :: rest => Event.set_ready (!id) k ∈ rest ∧ log_ok rest
  | Event.set_ready _ _ :: rest => log_ok rest

/-- Invariant of the barrier. -/
structure World.Inv (w : World) : Prop where
  bit : ∀ id, w.ready id ≤ 1
  flag : ∀ id, w.ready id + clears_done (w.thread (!id)) = sets_done (w.thread id)
  idle : ∀ id, (w.thread id).pc = Pc.build ∨ (w.thread id).pc = Pc.store_start ∨
      (w.thread id).pc = Pc.finished → w.ready id = 0
  busy : ∀ id, (w.thread id).pc = Pc.timed ∨ (w.thread id).pc = Pc.store_end →
      w.ready (!id) = 1
  logged : ∀ id k, Event.set_ready id k ∈ w.log ↔ k < sets_done (w.thread id)
  ordered : log_ok w.log

/-- A schedule in which both threads complete one scan. -/
def schedule_one_scan : List Bool :=
  [false, false, true, true, true, false, false, false, false, true, true, true]


set_option maxRecDepth 1000000
/-! ## Facts about `step` -/

theorem step_loop_none_of_large (size : Nat) (h : 2 ^ 63 ≤ size) :
    ∀ fuel s, (s = 0 ∨ ∃ k, k ≤ 63 ∧ s = 2 ^ k) → step_loop size fuel s = none := by
  intro fuel
  induction fuel with
  | zero => intro s _; rfl
  | succ n ih =>
    intro s hs
    have hle : s ≤ size := by
      rcases hs with rfl | ⟨k, hk, rfl⟩
      · exact Nat.zero_le _
      · exact le_trans (Nat.pow_le_pow_right (by norm_num) hk) h
    simp only [step_loop, hle, if_true]
    apply ih
    rcases hs with rfl | ⟨k, hk, rfl⟩
    · left; simp
    · rcases Nat.lt_or_ge k 63 with hk' | hk'
      · right
        refine ⟨k + 1, by omega, ?_⟩
        have : 2 ^ (k + 1) < ULONG_MOD := by
          unfold ULONG_MOD
          exact Nat.pow_lt_pow_right (by norm_num) (by omega)
        rw [← pow_succ, Nat.mod_eq_of_lt this]
      · left
        have : k = 63 := by omega
        subst this
        decide

theorem step_loop_some (size : Nat) (h : size < 2 ^ 63) :
    ∀ fuel k, 64 ≤ fuel + k → 2 ^ k ≤ 2 * size →
      ∃ j, k ≤ j ∧ 2 ^ j ≤ 2 * size ∧ size < 2 ^ j ∧ step_loop size fuel (2 ^ k) = some (2 ^ j) := by
  intro fuel
  induction fuel with
  | zero =>
    intro k hk hk2
    exfalso
    have : (2:Nat) ^ 64 ≤ 2 ^ k := Nat.pow_le_pow_right (by norm_num) (by omega)
    omega
  | succ n ih =>
    intro k hk hk2
    by_cases hle : 2 ^ k ≤ size
    · have hk63 : k < 63 := by
        by_contra hc
        have : (2:Nat) ^ 63 ≤ 2 ^ k := Nat.pow_le_pow_right (by norm_num) (by omega)
        omega
      have hlt : 2 ^ (k + 1) < ULONG_MOD := by
        unfold ULONG_MOD
        exact Nat.pow_lt_pow_right (by norm_num) (by omega)
      obtain ⟨j, hj1, hj2, hj3, hj4⟩ := ih (k + 1) (by omega) (by rw [pow_succ]; omega)
      refine ⟨j, by omega, hj2, hj3, ?_⟩
      simp only [step_loop, hle, if_true]
      rw [← pow_succ, Nat.mod_eq_of_lt hlt]
      exact hj4
    · refine ⟨k, le_refl _, hk2, by omega, ?_⟩
      simp only [step_loop, hle, if_false]

/-- More fuel does not change a result of the loop of `step`. -/
theorem step_loop_fuel_mono (size : Nat) :
    ∀ fuel extra s q, step_loop size fuel s = some q → step_loop size (fuel + extra) s = some q := by
  intro fuel
  induction fuel with
  | zero => intro extra s q h; simp [step_loop] at h
  | succ n ih =>
    intro extra s q h
    rw [show n + 1 + extra = (n + extra) + 1 by omega]
    simp only [step_loop] at h ⊢
    split
    · rename_i hle
      simp only [hle, if_true] at h
      exact ih extra _ q h
    · rename_i hle
      simp only [hle, if_false] at h
      exact h

/-- A power of two just above `s` is the least power of two above `s`. -/
theorem isLeast_pow_above (s j : Nat) (h1 : 2 ^ j ≤ 2 * s) (h2 : s < 2 ^ j) :
    IsLeast {q | (∃ k, q = 2 ^ k) ∧ s < q} (2 ^ j) := by
  refine ⟨⟨⟨j, rfl⟩, h2⟩, ?_⟩
  rintro q ⟨⟨k, rfl⟩, hk⟩
  by_contra hc
  have hkj : k < j := by
    by_contra hkj
    exact hc (Nat.pow_le_pow_right (by norm_num) (by omega))
  have : 2 ^ (k + 1) ≤ 2 ^ j := Nat.pow_le_pow_right (by norm_num) (by omega)
  rw [pow_succ] at this
  omega

/-- Outcome of the rounding statement of `step` when nothing wraps around. -/
theorem round_line_spec (L c : Nat) (hL : 0 < L) (hc : 1 ≤ c) (hfit : c + L ≤ ULONG_MOD) :
    ∃ r, round_line L c = some r ∧ IsLeast {m | L ∣ m ∧ c ≤ m} r ∧ r < c + L := by
  have hmod : (c + ULONG_MOD - 1) % ULONG_MOD = c - 1 := by
    rw [show c + ULONG_MOD - 1 = (c - 1) + ULONG_MOD by omega, Nat.add_mod_right]
    exact Nat.mod_eq_of_lt (by omega)
  have hdm := Nat.div_add_mod (c - 1) L
  have hml := Nat.mod_lt (c - 1) hL
  have hexp : ((c - 1) / L + 1) * L = L * ((c - 1) / L) + L := by ring
  have hlt : ((c - 1) / L + 1) * L < ULONG_MOD := by rw [hexp]; omega
  refine ⟨((c - 1) / L + 1) * L, ?_, ⟨⟨Dvd.intro_left _ rfl, by rw [hexp]; omega⟩, ?_⟩, by rw [hexp]; omega⟩
  · unfold round_line
    rw [if_neg (by omega), hmod, Nat.mod_eq_of_lt hlt]
  · rintro m ⟨⟨t, rfl⟩, hm⟩
    have ht : (c - 1) / L < t := by
      by_contra hc'
      have : L * t ≤ L * ((c - 1) / L) := Nat.mul_le_mul_left L (by omega)
      omega
    calc ((c - 1) / L + 1) * L = L * ((c - 1) / L + 1) := by ring
      _ ≤ L * t := Nat.mul_le_mul_left L ht

/-- For `1 ≤ size < 2 ^ 63` and a non-zero line size, `step` returns, and its
result is the least multiple of the line size that is at least the candidate
built with the least power of two strictly above `size`. -/
theorem step_some (L fuel s : Nat) (hL : 0 < L) (hL32 : L < UINT_MOD) (hs1 : 1 ≤ s)
    (hs : s < 2 ^ 63) (hfuel : 52 ≤ fuel) :
    ∃ q r, IsLeast {q | (∃ k, q = 2 ^ k) ∧ s < q} q ∧
      step L fuel s = some r ∧ IsLeast {m | L ∣ m ∧ candidate s q ≤ m} r ∧
      r < candidate s q + L ∧ s < candidate s q ∧ candidate s q < 2 ^ 63 + 2 ^ 62 := by
  have hU : ULONG_MOD = 2 ^ 64 := rfl
  have hI : UINT_MOD = 2 ^ 32 := rfl
  by_cases h1 : s < 1024
  · obtain ⟨j, _, hj2, hj3, _⟩ := step_loop_some s hs 64 0 (by omega) (by simpa using (by omega : 1 ≤ 2 * s))
    have hc : candidate s (2 ^ j) = s * 2 := by simp [candidate, h1]; omega
    obtain ⟨r, hr1, hr2, hr3⟩ := round_line_spec L (s * 2) hL (by omega) (by omega)
    refine ⟨2 ^ j, r, isLeast_pow_above s j hj2 hj3, ?_, by rw [hc]; exact hr2, by rw [hc]; exact hr3,
      by rw [hc]; omega, by rw [hc]; omega⟩
    unfold step
    rw [if_pos h1, Nat.mod_eq_of_lt (by omega)]
    exact hr1
  · by_cases h2 : s < 4096
    · obtain ⟨j, _, hj2, hj3, _⟩ := step_loop_some s hs 64 0 (by omega) (by simpa using (by omega : 1 ≤ 2 * s))
      have hc : candidate s (2 ^ j) = s + 1024 := by simp [candidate, h1, h2]
      obtain ⟨r, hr1, hr2, hr3⟩ := round_line_spec L (s + 1024) hL (by omega) (by omega)
      refine ⟨2 ^ j, r, isLeast_pow_above s j hj2 hj3, ?_, by rw [hc]; exact hr2, by rw [hc]; exact hr3,
        by rw [hc]; omega, by rw [hc]; omega⟩
      unfold step
      rw [if_neg h1, if_pos (by omega), Nat.mod_eq_of_lt (by omega)]
      exact hr1
    · obtain ⟨j, hj1, hj2, hj3, hj4⟩ := step_loop_some s hs fuel 12 (by omega) (by norm_num; omega)
      have hc : candidate s (2 ^ j) = s + 2 ^ j / 4 := by simp [candidate, h1, h2]
      have hq : 2 ^ j / 4 ≤ s / 2 := by omega
      obtain ⟨r, hr1, hr2, hr3⟩ := round_line_spec L (s + 2 ^ j / 4) hL (by omega) (by omega)
      have hpos : 0 < 2 ^ j / 4 := by
        have : (2:Nat) ^ 12 ≤ 2 ^ j := Nat.pow_le_pow_right (by norm_num) hj1
        omega
      refine ⟨2 ^ j, r, isLeast_pow_above s j hj2 hj3, ?_, by rw [hc]; exact hr2, by rw [hc]; exact hr3,
        by rw [hc]; omega, by rw [hc]; omega⟩
      unfold step
      rw [if_neg h1, if_neg (by omega)]
      have : step_loop s fuel (4 * 1024) = some (2 ^ j) := by
        rw [show 4 * 1024 = 2 ^ 12 by norm_num]; exact hj4
      rw [this]
      simp only
      rw [Nat.mod_eq_of_lt (by omega)]
      exact hr1

/-- From `2 ^ 63` on, `step` never returns. -/
theorem step_none_of_large (L fuel s : Nat) (hs : 2 ^ 63 ≤ s) : step L fuel s = none := by
  unfold step
  rw [if_neg (by omega), if_neg (by omega)]
  rw [step_loop_none_of_large s hs fuel (4 * 1024) (Or.inr ⟨12, by norm_num, by norm_num⟩)]

/-- More fuel does not change a result of `step`. -/
theorem step_fuel_mono (L fuel extra s r : Nat) (h : step L fuel s = some r) :
    step L (fuel + extra) s = some r := by
  unfold step at h ⊢
  split
  · rename_i h1; rw [if_pos h1] at h; exact h
  · rename_i h1
    rw [if_neg h1] at h
    split
    · rename_i h2; rw [if_pos h2] at h; exact h
    · rename_i h2
      rw [if_neg h2] at h
      cases hq : step_loop s fuel (4 * 1024) with
      | none => rw [hq] at h; simp at h
      | some q =>
        rw [hq] at h
        rw [step_loop_fuel_mono s fuel extra _ q hq]
        exact h

/-- Whatever the fuel, a result of `step` on a positive size is a larger
multiple of the line size. -/
theorem step_result (L fuel s r : Nat) (hL32 : L < UINT_MOD) (hs1 : 1 ≤ s)
    (h : step L fuel s = some r) : s < r ∧ L ∣ r ∧ 0 < L := by
  have hL : 0 < L := by
    by_contra hc
    have hz : L = 0 := by omega
    subst hz
    unfold step round_line at h
    simp only [if_true] at h
    split at h
    · simp at h
    · split at h
      · simp at h
      · split at h <;> simp at h
  have hs : s < 2 ^ 63 := by
    by_contra hc
    rw [step_none_of_large L fuel s (by omega)] at h
    simp at h
  obtain ⟨q, r', _, hr1, hr2, _, hr4, _⟩ := step_some L (fuel + 52) s hL hL32 hs1 hs (by omega)
  rw [step_fuel_mono L fuel 52 s r h] at hr1
  cases hr1
  exact ⟨lt_of_lt_of_le hr4 hr2.1.2, hr2.1.1, hL⟩


/-! ## Accepted configurations -/

theorem parse_command_line_true (c : Config) (h : parse_command_line c = true) :
    0 < c.opt_line_sz ∧ MIN_SIZE ≤ c.opt_max_size ∧ c.opt_stride ≤ c.opt_max_size ∧
      c.opt_line_sz ∣ c.opt_stride ∧ (c.opt_index_based = false → SIZEOF_PTR ≤ c.opt_stride) := by
  unfold parse_command_line at h
  split at h
  · simp at h
  · split at h
    · simp at h
    · split at h
      · simp at h
      · split at h
        · simp at h
        · split at h
          · simp at h
          · rename_i h1 h2 h3 h4 h5
            refine ⟨by omega, by omega, by omega, Nat.dvd_of_mod_eq_zero (by simpa using h4), ?_⟩
            intro hi
            simp [hi] at h5
            exact h5

theorem first_size_ge (c : Config) : MIN_SIZE ≤ first_size c ∧ c.opt_stride ≤ first_size c := by
  unfold first_size
  split <;> constructor <;> omega

/-! ## Facts about the sweep -/

theorem size_sequence_mem (c : Config) (sf : Nat) (hL32 : c.opt_line_sz < UINT_MOD) :
    ∀ n size, 1 ≤ size → ∀ x ∈ size_sequence c sf n size,
      x ≤ c.opt_max_size ∧ (x = size ∨ (size < x ∧ c.opt_line_sz ∣ x)) := by
  intro n
  induction n with
  | zero => intro size _ x hx; simp [size_sequence] at hx
  | succ n ih =>
    intro size h1 x hx
    rw [size_sequence] at hx
    split at hx
    · rename_i hle
      rcases List.mem_cons.1 hx with rfl | hx
      · exact ⟨hle, Or.inl rfl⟩
      · cases hs : step c.opt_line_sz sf size with
        | none => rw [hs] at hx; simp at hx
        | some r =>
          rw [hs] at hx
          obtain ⟨hr1, hr2, _⟩ := step_result c.opt_line_sz sf size r hL32 h1 hs
          obtain ⟨hx1, hx2⟩ := ih r (by omega) x hx
          refine ⟨hx1, Or.inr ?_⟩
          rcases hx2 with rfl | ⟨hx2, hx3⟩
          · exact ⟨hr1, hr2⟩
          · exact ⟨by omega, hx3⟩
    · simp at hx


/-- The sizes a run hands to `scan` are values of the loop header. -/
theorem run_loop_subset (c : Config) (fuel : Nat) :
    ∀ n size mem, ∀ x ∈ (run_loop c fuel n size mem).tested,
      x ∈ size_sequence c fuel n size := by
  intro n
  induction n with
  | zero => intro size mem x hx; simp [run_loop] at hx
  | succ n ih =>
    intro size mem x hx
    rw [run_loop] at hx
    rw [size_sequence]
    split at hx
    · rename_i hle
      rw [if_pos hle]
      split at hx
      · simp only [List.mem_singleton] at hx
        subst hx
        exact List.mem_cons_self _ _
      · rename_i mem1 _
        split at hx
        · simp only [List.mem_singleton] at hx
          subst hx
          exact List.mem_cons_self _ _
        · rename_i size1 hs
          simp only [List.mem_cons] at hx
          rcases hx with rfl | hx
          · exact List.mem_cons_self _ _
          · exact List.mem_cons_of_mem _ (ih size1 mem1 x hx)
    · simp at hx

theorem run_test_subset (c : Config) (heap : Option Mem) (fuel n : Nat) :
    ∀ x ∈ (run_test c heap fuel n).tested, x ∈ size_sequence c fuel n (first_size c) := by
  intro x hx
  unfold run_test at hx
  split at hx
  · simp at hx
  · exact run_loop_subset c fuel n _ _ x hx

/-- A run hands sizes to `scan` only when `malloc` returned a block. -/
theorem run_test_tested_alloc (c : Config) (heap : Option Mem) (fuel n x : Nat)
    (hx : x ∈ (run_test c heap fuel n).tested) : c.opt_max_size ≤ PTRDIFF_MAX := by
  unfold run_test malloc at hx
  by_contra hc
  rw [if_pos (by omega)] at hx
  simp at hx

/-- In a run of the loop, the sizes handed to `scan` increase strictly, stay
within the bounds, and `step` returns a larger size on each of them. -/
theorem run_loop_tested (c : Config) (fuel : Nat) (hfuel : 52 ≤ fuel) (hL : 0 < c.opt_line_sz)
    (hL32 : c.opt_line_sz < UINT_MOD) (hmax : c.opt_max_size ≤ PTRDIFF_MAX) :
    ∀ n size mem, 1 ≤ size →
      (∀ x ∈ (run_loop c fuel n size mem).tested, size ≤ x ∧ x ≤ c.opt_max_size ∧
        ∃ r, step c.opt_line_sz fuel x = some r ∧ x < r) ∧
      (run_loop c fuel n size mem).tested.Pairwise (fun a b => a < b) ∧
      ∀ s, (run_loop c fuel n size mem).tested.head? = some s → s = size := by
  have hP : PTRDIFF_MAX = 2 ^ 63 - 1 := rfl
  intro n
  induction n with
  | zero => intro size mem _; simp [run_loop]
  | succ n ih =>
    intro size mem h1
    rw [run_loop]
    split
    · rename_i hle
      obtain ⟨q, r, _, hr1, hr2, _, hr4, _⟩ :=
        step_some c.opt_line_sz fuel size hL hL32 h1 (by omega) hfuel
      have hsr : size < r := lt_of_lt_of_le hr4 hr2.1.2
      have hone : ∀ x ∈ [size], size ≤ x ∧ x ≤ c.opt_max_size ∧
          ∃ r, step c.opt_line_sz fuel x = some r ∧ x < r := by
        intro x hx
        simp only [List.mem_singleton] at hx
        subst hx
        exact ⟨le_refl _, hle, r, hr1, hsr⟩
      split
      · exact ⟨hone, by simp, by simp⟩
      · rename_i mem1 _
        rw [hr1]
        simp only
        obtain ⟨k1, k2, _⟩ := ih r mem1 (by omega)
        refine ⟨?_, ?_, by simp⟩
        · intro x hx
          rcases List.mem_cons.1 hx with rfl | hx
          · exact ⟨le_refl _, hle, r, hr1, hsr⟩
          · obtain ⟨a, b, d⟩ := k1 x hx
            exact ⟨by omega, b, d⟩
        · refine List.pairwise_cons.2 ⟨?_, k2⟩
          intro x hx
          have := (k1 x hx).1
          omega
    · simp


/-! ## The chain on line indices is one cycle -/

theorem chain_next_lt (m N x : Nat) (hm : 0 < m) (hmN : m ≤ N) : chain_next m N x < N := by
  unfold chain_next
  split
  · assumption
  · exact lt_of_lt_of_le (Nat.mod_lt _ hm) hmN

theorem chain_rank_lt (m N x : Nat) (hm : 0 < m) (hx : x < N) : chain_rank m N x < N := by
  unfold chain_rank
  have hx' := Nat.div_add_mod x m
  have hN' := Nat.div_add_mod N m
  have hj := Nat.mod_lt x hm
  have hr := Nat.mod_lt N hm
  generalize x % m = j at *
  generalize x / m = k at *
  generalize N % m = r at *
  generalize N / m = q at *
  have hkq : k ≤ q := by
    by_contra hc
    have : m * (q + 1) ≤ m * k := Nat.mul_le_mul_left m (by omega)
    rw [Nat.mul_add] at this
    omega
  rcases Nat.lt_or_ge j r with hjr | hjr
  · rw [min_eq_left (le_of_lt hjr)]
    have h1 : (j + 1) * q ≤ r * q := Nat.mul_le_mul_right q hjr
    have h2 : r * q ≤ m * q := Nat.mul_le_mul_right q (le_of_lt hr)
    rw [Nat.add_mul] at h1
    omega
  · rw [min_eq_right hjr]
    have hkq' : k < q := by
      by_contra hc
      have : k = q := by omega
      subst this
      omega
    have h1 : (j + 1) * q ≤ m * q := Nat.mul_le_mul_right q hj
    rw [Nat.add_mul] at h1
    omega

theorem chain_rank_zero (m N : Nat) : chain_rank m N 0 = 0 := by
  simp [chain_rank]

theorem chain_rank_next (m N x : Nat) (hm : 0 < m) (hmN : m ≤ N) (hx : x < N) :
    chain_rank m N (chain_next m N x) = (chain_rank m N x + 1) % N := by
  by_cases h : x + m < N
  · have hlt := chain_rank_lt m N (x + m) hm h
    have hn : chain_next m N x = x + m := by simp [chain_next, h]
    have he : chain_rank m N (x + m) = chain_rank m N x + 1 := by
      unfold chain_rank
      rw [Nat.add_mod_right, Nat.add_div_right x hm]
      omega
    rw [hn, he, Nat.mod_eq_of_lt (by omega)]
  · have hn : chain_next m N x = (x + 1) % m := by simp [chain_next, h]
    rw [hn]
    unfold chain_rank
    rw [Nat.mod_mod, Nat.div_eq_of_lt (Nat.mod_lt _ hm)]
    have hx' := Nat.div_add_mod x m
    have hN' := Nat.div_add_mod N m
    have hj := Nat.mod_lt x hm
    have hr := Nat.mod_lt N hm
    have hsucc : (x + 1) % m = if x % m + 1 < m then x % m + 1 else 0 := by
      rw [Nat.add_mod]
      split
      · rename_i hlt
        rcases Nat.lt_or_ge 1 m with h1 | h1
        · rw [Nat.mod_eq_of_lt h1, Nat.mod_eq_of_lt hlt]
        · omega
      · rename_i hge
        rcases Nat.lt_or_ge 1 m with h1 | h1
        · rw [Nat.mod_eq_of_lt h1]
          have : x % m + 1 = m := by omega
          rw [this, Nat.mod_self]
        · have : m = 1 := by omega
          subst this
          simp; omega
    rw [hsucc]
    generalize x % m = j at *
    generalize x / m = k at *
    generalize N % m = r at *
    generalize N / m = q at *
    have hk1 : q ≤ k + 1 := by
      by_contra hc
      have : m * (k + 2) ≤ m * q := Nat.mul_le_mul_left m (by omega)
      rw [Nat.mul_add] at this
      omega
    have hkq : k ≤ q := by
      by_contra hc
      have : m * (q + 1) ≤ m * k := Nat.mul_le_mul_left m (by omega)
      rw [Nat.mul_add] at this
      omega
    have hkcase : (j < r ∧ k = q) ∨ (r ≤ j ∧ k + 1 = q) := by
      rcases Nat.lt_or_ge j r with hjr | hjr
      · left
        refine ⟨hjr, ?_⟩
        by_contra hc
        have : k + 1 = q := by omega
        subst this
        rw [Nat.mul_add] at hN'
        omega
      · right
        refine ⟨hjr, ?_⟩
        by_contra hc
        have : k = q := by omega
        subst this
        omega
    have hq1 : 1 ≤ q := by
      by_contra hc
      have : q = 0 := by omega
      subst this
      rw [Nat.mul_zero] at hN'
      omega
    split
    · rename_i hj1
      rw [Nat.add_mul]
      rcases hkcase with ⟨hjr, hk⟩ | ⟨hjr, hk⟩
      · rw [min_eq_left (by omega : j + 1 ≤ r), min_eq_left (le_of_lt hjr)]
        subst hk
        have hlt : j * k + j + k + 1 < N := by
          have h1 : (j + 1) * k ≤ r * k := Nat.mul_le_mul_right k hjr
          have h2 : r * k ≤ m * k := Nat.mul_le_mul_right k (le_of_lt hr)
          have h3 : (j + 2) * k ≤ m * k := Nat.mul_le_mul_right k (by omega)
          rw [Nat.add_mul] at h1 h3
          omega
        rw [Nat.mod_eq_of_lt hlt]
        omega
      · rw [min_eq_right (by omega : r ≤ j + 1), min_eq_right hjr]
        subst hk
        have hlt : j * (k + 1) + r + k + 1 < N := by
          have h3 : (j + 2) * (k + 1) ≤ m * (k + 1) := Nat.mul_le_mul_right (k + 1) (by omega)
          rw [Nat.add_mul] at h3
          omega
        rw [Nat.mod_eq_of_lt hlt]
        omega
    · rename_i hj1
      have hjm : j + 1 = m := by omega
      rcases hkcase with ⟨hjr, hk⟩ | ⟨hjr, hk⟩
      · omega
      · rw [min_eq_right hjr]
        subst hk
        have : j * (k + 1) + r + k + 1 = N := by
          have : (j + 1) * (k + 1) = m * (k + 1) := by rw [hjm]
          rw [Nat.add_mul] at this
          omega
        rw [this, Nat.mod_self]
        simp


theorem chain_iterate_lt (m N x : Nat) (hm : 0 < m) (hmN : m ≤ N) (hx : x < N) (n : Nat) :
    (chain_next m N)^[n] x < N := by
  induction n with
  | zero => simpa using hx
  | succ n _ =>
    rw [Function.iterate_succ_apply']
    exact chain_next_lt m N _ hm hmN

theorem chain_rank_iterate (m N x : Nat) (hm : 0 < m) (hmN : m ≤ N) (hx : x < N) (n : Nat) :
    chain_rank m N ((chain_next m N)^[n] x) = (chain_rank m N x + n) % N := by
  induction n with
  | zero =>
    rw [Function.iterate_zero_apply, Nat.add_zero, Nat.mod_eq_of_lt (chain_rank_lt m N x hm hx)]
  | succ n ih =>
    rw [Function.iterate_succ_apply',
      chain_rank_next m N _ hm hmN (chain_iterate_lt m N x hm hmN hx n), ih, Nat.mod_add_mod]
    rfl

/-- Every line is reached from line 0 in fewer than `N` steps. -/
theorem chain_orbit_covers (m N : Nat) (hm : 0 < m) (hmN : m ≤ N) (y : Nat) (hy : y < N) :
    ∃ n, n < N ∧ (chain_next m N)^[n] 0 = y := by
  have hN : 0 < N := lt_of_lt_of_le hm hmN
  let g : Fin N → Fin N := fun n => ⟨(chain_next m N)^[n.1] 0, chain_iterate_lt m N 0 hm hmN hN n.1⟩
  have hinj : Function.Injective g := by
    intro a b hab
    have h1 : (chain_next m N)^[a.1] 0 = (chain_next m N)^[b.1] 0 := congrArg Fin.val hab
    have h2 := congrArg (chain_rank m N) h1
    rw [chain_rank_iterate m N 0 hm hmN hN, chain_rank_iterate m N 0 hm hmN hN, chain_rank_zero,
      Nat.zero_add, Nat.zero_add, Nat.mod_eq_of_lt a.2, Nat.mod_eq_of_lt b.2] at h2
    exact Fin.ext h2
  obtain ⟨n, hn⟩ := (Finite.injective_iff_surjective.1 hinj) ⟨y, hy⟩
  exact ⟨n.1, n.2, congrArg Fin.val hn⟩

theorem chain_rank_inj (m N x y : Nat) (hm : 0 < m) (hmN : m ≤ N) (hx : x < N) (hy : y < N)
    (h : chain_rank m N x = chain_rank m N y) : x = y := by
  have hN : 0 < N := lt_of_lt_of_le hm hmN
  obtain ⟨a, ha, rfl⟩ := chain_orbit_covers m N hm hmN x hx
  obtain ⟨b, hb, rfl⟩ := chain_orbit_covers m N hm hmN y hy
  rw [chain_rank_iterate m N 0 hm hmN hN, chain_rank_iterate m N 0 hm hmN hN, chain_rank_zero,
    Nat.zero_add, Nat.zero_add, Nat.mod_eq_of_lt ha, Nat.mod_eq_of_lt hb] at h
  rw [h]

theorem chain_iterate_eq_iff (m N x : Nat) (hm : 0 < m) (hmN : m ≤ N) (hx : x < N) (a b : Nat) :
    (chain_next m N)^[a] x = (chain_next m N)^[b] x ↔ a % N = b % N := by
  have hr := chain_rank_lt m N x hm hx
  constructor
  · intro h
    have h2 := congrArg (chain_rank m N) h
    rw [chain_rank_iterate m N x hm hmN hx, chain_rank_iterate m N x hm hmN hx] at h2
    have h3 : (chain_rank m N x + a) ≡ (chain_rank m N x + b) [MOD N] := h2
    exact Nat.ModEq.add_left_cancel' _ h3
  · intro h
    apply chain_rank_inj m N _ _ hm hmN (chain_iterate_lt m N x hm hmN hx a)
      (chain_iterate_lt m N x hm hmN hx b)
    rw [chain_rank_iterate m N x hm hmN hx, chain_rank_iterate m N x hm hmN hx]
    exact Nat.ModEq.add_left _ h

theorem chain_iterate_period (m N x : Nat) (hm : 0 < m) (hmN : m ≤ N) (hx : x < N) (k : Nat) :
    (chain_next m N)^[N * k] x = x := by
  have := (chain_iterate_eq_iff m N x hm hmN hx (N * k) 0).2 (by simp)
  simpa using this

theorem chain_iterate_ne (m N x : Nat) (hm : 0 < m) (hmN : m ≤ N) (hx : x < N) (n : Nat)
    (h0 : 0 < n) (hn : n < N) : (chain_next m N)^[n] x ≠ x := by
  intro h
  have := (chain_iterate_eq_iff m N x hm hmN hx n 0).1 (by simpa using h)
  rw [Nat.mod_eq_of_lt hn, Nat.zero_mod] at this
  omega


/-! ## Loads and stores -/

theorem store_ptr_other (mem : Mem) (a t b : Nat) (h : b < a ∨ a + SIZEOF_PTR ≤ b) :
    store_ptr mem a t b = mem b := by
  unfold store_ptr
  rw [if_neg (by omega)]

theorem load_store_same (mem : Mem) (a t : Nat) : load_ptr (store_ptr mem a t) a = some t := by
  have hb : ∀ k < SIZEOF_PTR, store_ptr mem a t (a + k) = MemByte.ptr t k := by
    intro k hk
    unfold store_ptr
    rw [if_pos ⟨by omega, by omega⟩, Nat.add_sub_cancel_left]
  have h0 : store_ptr mem a t a = MemByte.ptr t 0 := by
    have := hb 0 (by decide)
    simpa using this
  unfold load_ptr
  rw [h0]
  simp only
  rw [if_pos hb]

theorem load_congr (m1 m2 : Mem) (a : Nat) (h : ∀ k < SIZEOF_PTR, m1 (a + k) = m2 (a + k)) :
    load_ptr m1 a = load_ptr m2 a := by
  have h0 : m1 a = m2 a := by
    have := h 0 (by decide)
    simpa using this
  have hall : ∀ t, (∀ k < SIZEOF_PTR, m1 (a + k) = MemByte.ptr t k) ↔
      (∀ k < SIZEOF_PTR, m2 (a + k) = MemByte.ptr t k) := by
    intro t
    constructor
    · intro hh k hk; rw [← h k hk]; exact hh k hk
    · intro hh k hk; rw [h k hk]; exact hh k hk
  unfold load_ptr
  rw [h0]
  cases m2 a with
  | data v => rfl
  | ptr t i =>
    simp only
    by_cases hc : ∀ k < SIZEOF_PTR, m1 (a + k) = MemByte.ptr t k
    · rw [if_pos hc, if_pos ((hall t).1 hc)]
    · rw [if_neg hc, if_neg (fun h' => hc ((hall t).2 h'))]

/-- A loaded pointer was stored whole: its first byte is byte 0 of that pointer. -/
theorem load_ptr_some (m : Mem) (a t : Nat) (h : load_ptr m a = some t) :
    ∀ k < SIZEOF_PTR, m (a + k) = MemByte.ptr t k := by
  unfold load_ptr at h
  split at h
  · rename_i t' i hm
    split at h
    · rename_i hall
      cases h
      exact hall
    · simp at h
  · simp at h

/-! ## The pointer loops on line-aligned addresses -/

theorem line_slots_disjoint (L a b k : Nat) (hL : SIZEOF_PTR ≤ L) (hk : k < SIZEOF_PTR)
    (hab : a ≠ b) : a * L + k < b * L ∨ b * L + L ≤ a * L + k := by
  rcases Nat.lt_or_ge a b with h | h
  · left
    have : (a + 1) * L ≤ b * L := Nat.mul_le_mul_right L h
    rw [Nat.add_mul] at this
    omega
  · right
    have : (b + 1) * L ≤ a * L := Nat.mul_le_mul_right L (by omega)
    rw [Nat.add_mul] at this
    omega

/-- A pointer loop whose addresses are the distinct lines `A y` ends; it
leaves every byte outside those lines as it was, and afterwards line `A y`
holds the pointer stored for `y`. -/
theorem pointer_loop_spec (L bound : Nat) (addr val A : Nat → Nat) (hL : SIZEOF_PTR ≤ L)
    (hfit : bound + L ≤ ULONG_MOD) :
    ∀ fuel x mem, bound ≤ (x + fuel) * L →
      (∀ y, x ≤ y → y * L < bound → addr (y * L) = A y * L) →
      (∀ y z, x ≤ y → y < z → z * L < bound → A y ≠ A z) →
      ∃ xe mem', pointer_loop L bound addr val (fuel + 1) (x * L) mem = some (xe * L, mem') ∧
        x ≤ xe ∧ bound ≤ xe * L ∧ (∀ y, x ≤ y → y < xe → y * L < bound) ∧
        (∀ b, (∀ y, x ≤ y → y * L < bound → b < A y * L ∨ A y * L + L ≤ b) → mem' b = mem b) ∧
        (∀ y, x ≤ y → y * L < bound → load_ptr mem' (A y * L) = some (val (y * L))) := by
  have hP : SIZEOF_PTR = 8 := rfl
  intro fuel
  induction fuel with
  | zero =>
    intro x mem hb _ _
    refine ⟨x, mem, ?_, le_refl _, by simpa using hb, fun y h1 h2 => by omega, fun _ _ => rfl, ?_⟩
    · rw [pointer_loop, if_neg (by simpa using hb)]
    · intro y hy hyb
      have : x * L ≤ y * L := Nat.mul_le_mul_right L hy
      simp at hb
      omega
  | succ n ih =>
    intro x mem hb haddr hinj
    by_cases hlt : x * L < bound
    · have hnext : (x * L + L) % ULONG_MOD = (x + 1) * L := by
        rw [Nat.add_mul, Nat.one_mul]
        exact Nat.mod_eq_of_lt (by omega)
      obtain ⟨xe, mem', h1, h2, h3, h4, h5, h6⟩ :=
        ih (x + 1) (store_ptr mem (addr (x * L)) (val (x * L)))
          (by rw [show x + 1 + n = x + (n + 1) by omega]; exact hb)
          (fun y hy hyb => haddr y (by omega) hyb)
          (fun y z hy hyz hzb => hinj y z (by omega) hyz hzb)
      refine ⟨xe, mem', ?_, by omega, h3, ?_, ?_, ?_⟩
      · rw [pointer_loop, if_pos hlt, hnext]
        exact h1
      · intro y hy hye
        rcases Nat.eq_or_lt_of_le hy with rfl | hy'
        · exact hlt
        · exact h4 y hy' hye
      · intro b hbout
        rw [h5 b (fun y hy hyb => hbout y (by omega) hyb), haddr x (le_refl _) hlt]
        apply store_ptr_other
        rcases hbout x (le_refl _) hlt with h | h
        · left; exact h
        · right; omega
      · intro y hy hyb
        rcases Nat.eq_or_lt_of_le hy with rfl | hy'
        · have hframe : ∀ k < SIZEOF_PTR,
              mem' (A x * L + k) = store_ptr mem (addr (x * L)) (val (x * L)) (A x * L + k) := by
            intro k hk
            apply h5
            intro z hz hzb
            have hne : A x ≠ A z := hinj x z (le_refl _) hz hzb
            exact line_slots_disjoint L (A x) (A z) k hL hk hne
          rw [load_congr _ _ _ hframe, haddr x (le_refl _) hlt]
          exact load_store_same _ _ _
        · exact h6 y hy' hyb
    · refine ⟨x, mem, ?_, le_refl _, by omega, fun y h1 h2 => by omega, fun _ _ => rfl, ?_⟩
      · rw [pointer_loop, if_neg hlt]
      · intro y hy hyb
        have : x * L ≤ y * L := Nat.mul_le_mul_right L hy
        omega


/-! ## What the two builders leave in the buffer -/

theorem line_lt_iff (L size a : Nat) (hL : 0 < L) : a * L < size ↔ a < (size + L - 1) / L := by
  rw [@Nat.lt_iff_add_one_le a, Nat.le_div_iff_mul_le hL, Nat.add_mul]
  omega

theorem stride_eq (c : Config) (hdvd : c.opt_line_sz ∣ c.opt_stride) :
    c.opt_stride = lines_per_stride c * c.opt_line_sz := by
  unfold lines_per_stride
  rw [Nat.div_mul_cancel hdvd]

theorem lines_per_stride_pos (c : Config) (hS : 0 < c.opt_stride)
    (hdvd : c.opt_line_sz ∣ c.opt_stride) : 0 < lines_per_stride c := by
  have := stride_eq c hdvd
  by_contra hc
  have h0 : lines_per_stride c = 0 := by omega
  rw [h0] at this
  omega

theorem lines_per_stride_le (c : Config) (size : Nat) (hL : 0 < c.opt_line_sz)
    (hdvd : c.opt_line_sz ∣ c.opt_stride) (hsz : c.opt_stride ≤ size) :
    lines_per_stride c ≤ line_count c size := by
  have := stride_eq c hdvd
  unfold line_count
  rw [Nat.le_div_iff_mul_le hL]
  omega

theorem wrap_mod_line (c : Config) (y : Nat)
    (hdvd : c.opt_line_sz ∣ c.opt_stride) :
    (y * c.opt_line_sz + c.opt_line_sz) % c.opt_stride
      = (y + 1) % lines_per_stride c * c.opt_line_sz := by
  conv_lhs => rw [stride_eq c hdvd]
  rw [show y * c.opt_line_sz + c.opt_line_sz = (y + 1) * c.opt_line_sz by ring]
  exact Nat.mul_mod_mul_right _ _ _

theorem succ_mod_inj (m y z : Nat) (hyz : y < z) (hz : z < y + m) : (y + 1) % m ≠ (z + 1) % m := by
  intro h
  have h1 := Nat.sub_mod_eq_zero_of_mod_eq h.symm
  rw [show z + 1 - (y + 1) = z - y by omega, Nat.mod_eq_of_lt (by omega)] at h1
  omega

/-- After `compute_forward_pointers`, line `y` holds a pointer to line `chain_next y`. -/
theorem forward_chain (c : Config) (size fuel : Nat) (mem : Mem)
    (hL : SIZEOF_PTR ≤ c.opt_line_sz) (hS : 0 < c.opt_stride)
    (hdvd : c.opt_line_sz ∣ c.opt_stride) (hsz : c.opt_stride ≤ size)
    (hfit : size + c.opt_line_sz ≤ ULONG_MOD) (hfuel : size < fuel) :
    ∃ mem', compute_forward_pointers c size fuel mem = some mem' ∧
      ∀ y, y < line_count c size → load_ptr mem' (y * c.opt_line_sz)
        = some (chain_next (lines_per_stride c) (line_count c size) y * c.opt_line_sz) := by
  have hP : SIZEOF_PTR = 8 := rfl
  have hL0 : 0 < c.opt_line_sz := by omega
  have hSeq := stride_eq c hdvd
  obtain ⟨f, rfl⟩ : ∃ f, fuel = f + 1 := ⟨fuel - 1, by omega⟩
  have hfL : f ≤ f * c.opt_line_sz := Nat.le_mul_of_pos_right f hL0
  have hb1 : (size + ULONG_MOD - c.opt_stride) % ULONG_MOD = size - c.opt_stride := by
    rw [show size + ULONG_MOD - c.opt_stride = (size - c.opt_stride) + ULONG_MOD by omega,
      Nat.add_mod_right]
    exact Nat.mod_eq_of_lt (by omega)
  obtain ⟨x1, mem1, r1, _, b1, i1, _, l1⟩ :=
    pointer_loop_spec c.opt_line_sz (size - c.opt_stride) (fun i => i)
      (fun i => (i + c.opt_stride) % ULONG_MOD) (fun y => y) hL (by omega) f 0 mem
      (by rw [Nat.zero_add]; omega) (fun _ _ _ => rfl) (fun y z _ hyz _ => Nat.ne_of_lt hyz)
  obtain ⟨x2, mem2, r2, _, _, _, f2, l2⟩ :=
    pointer_loop_spec c.opt_line_sz size (fun i => i)
      (fun i => (i + c.opt_line_sz) % ULONG_MOD % c.opt_stride) (fun y => y) hL hfit f x1 mem1
      (by rw [Nat.add_mul]; omega) (fun _ _ _ => rfl) (fun y z _ hyz _ => Nat.ne_of_lt hyz)
  refine ⟨mem2, ?_, ?_⟩
  · unfold compute_forward_pointers
    rw [hb1]
    rw [Nat.zero_mul] at r1
    rw [r1]
    simp only
    rw [r2]
  · intro y hy
    have hyL : y * c.opt_line_sz < size := (line_lt_iff _ _ _ hL0).2 hy
    by_cases hy1 : y < x1
    · have hlt : y * c.opt_line_sz < size - c.opt_stride := i1 y (Nat.zero_le _) hy1
      have hnext : chain_next (lines_per_stride c) (line_count c size) y
          = y + lines_per_stride c := by
        unfold chain_next
        rw [if_pos]
        unfold line_count
        rw [← line_lt_iff _ _ _ hL0, Nat.add_mul, ← hSeq]
        omega
      have hframe : ∀ k < SIZEOF_PTR,
          mem2 (y * c.opt_line_sz + k) = mem1 (y * c.opt_line_sz + k) := by
        intro k hk
        apply f2
        intro z hz _
        exact line_slots_disjoint _ y z k hL hk (by omega)
      rw [load_congr _ _ _ hframe, hnext, l1 y (Nat.zero_le _) hlt, Nat.add_mul, ← hSeq]
      have hw : (y * c.opt_line_sz + c.opt_stride) % ULONG_MOD = y * c.opt_line_sz + c.opt_stride :=
        Nat.mod_eq_of_lt (by omega)
      exact congrArg some hw
    · have hge : size - c.opt_stride ≤ y * c.opt_line_sz :=
        le_trans b1 (Nat.mul_le_mul_right _ (by omega))
      have hnext : chain_next (lines_per_stride c) (line_count c size) y
          = (y + 1) % lines_per_stride c := by
        unfold chain_next
        rw [if_neg]
        unfold line_count
        rw [← line_lt_iff _ _ _ hL0, Nat.add_mul, ← hSeq]
        omega
      rw [hnext, l2 y (by omega) hyL]
      have hw : (y * c.opt_line_sz + c.opt_line_sz) % ULONG_MOD
          = y * c.opt_line_sz + c.opt_line_sz := Nat.mod_eq_of_lt (by omega)
      exact congrArg some (by rw [hw, wrap_mod_line c y hdvd])

/-- After `compute_backward_pointers`, line `chain_next y` holds a pointer to line `y`. -/
theorem backward_chain (c : Config) (size fuel : Nat) (mem : Mem)
    (hL : SIZEOF_PTR ≤ c.opt_line_sz) (hS : 0 < c.opt_stride)
    (hdvd : c.opt_line_sz ∣ c.opt_stride) (hsz : c.opt_stride ≤ size)
    (hfit : size + c.opt_line_sz ≤ ULONG_MOD) (hfuel : size < fuel) :
    ∃ mem', compute_backward_pointers c size fuel mem = some mem' ∧
      ∀ y, y < line_count c size →
        load_ptr mem' (chain_next (lines_per_stride c) (line_count c size) y * c.opt_line_sz)
          = some (y * c.opt_line_sz) := by
  have hP : SIZEOF_PTR = 8 := rfl
  have hL0 : 0 < c.opt_line_sz := by omega
  have hSeq := stride_eq c hdvd
  have hm := lines_per_stride_pos c hS hdvd
  obtain ⟨f, rfl⟩ : ∃ f, fuel = f + 1 := ⟨fuel - 1, by omega⟩
  have hfL : f ≤ f * c.opt_line_sz := Nat.le_mul_of_pos_right f hL0
  have hb1 : (size + ULONG_MOD - c.opt_stride) % ULONG_MOD = size - c.opt_stride := by
    rw [show size + ULONG_MOD - c.opt_stride = (size - c.opt_stride) + ULONG_MOD by omega,
      Nat.add_mod_right]
    exact Nat.mod_eq_of_lt (by omega)
  obtain ⟨x1, mem1, r1, _, b1, i1, _, l1⟩ :=
    pointer_loop_spec c.opt_line_sz (size - c.opt_stride)
      (fun i => (i + c.opt_stride) % ULONG_MOD) (fun i => i)
      (fun y => y + lines_per_stride c) hL (by omega) f 0 mem
      (by rw [Nat.zero_add]; omega)
      (fun y _ hyb => by
        have hw : (y * c.opt_line_sz + c.opt_stride) % ULONG_MOD
            = y * c.opt_line_sz + c.opt_stride := Nat.mod_eq_of_lt (by omega)
        show (y * c.opt_line_sz + c.opt_stride) % ULONG_MOD
          = (y + lines_per_stride c) * c.opt_line_sz
        rw [hw, Nat.add_mul, ← hSeq])
      (fun y z _ hyz _ => by
        show y + lines_per_stride c ≠ z + lines_per_stride c
        omega)
  have hx1 : ∀ y, x1 ≤ y → size ≤ (y + lines_per_stride c) * c.opt_line_sz := by
    intro y hy
    have : x1 * c.opt_line_sz ≤ y * c.opt_line_sz := Nat.mul_le_mul_right _ hy
    rw [Nat.add_mul, ← hSeq]
    omega
  obtain ⟨x2, mem2, r2, _, _, _, f2, l2⟩ :=
    pointer_loop_spec c.opt_line_sz size
      (fun i => (i + c.opt_line_sz) % ULONG_MOD % c.opt_stride) (fun i => i)
      (fun y => (y + 1) % lines_per_stride c) hL hfit f x1 mem1
      (by rw [Nat.add_mul]; omega)
      (fun y _ hyb => by
        have hw : (y * c.opt_line_sz + c.opt_line_sz) % ULONG_MOD
            = y * c.opt_line_sz + c.opt_line_sz := Nat.mod_eq_of_lt (by omega)
        show (y * c.opt_line_sz + c.opt_line_sz) % ULONG_MOD % c.opt_stride
          = (y + 1) % lines_per_stride c * c.opt_line_sz
        rw [hw, wrap_mod_line c y hdvd])
      (fun y z hy hyz hzb => by
        apply succ_mod_inj _ y z hyz
        have h1 := hx1 y hy
        have h2 : z * c.opt_line_sz < (y + lines_per_stride c) * c.opt_line_sz := by omega
        exact Nat.lt_of_mul_lt_mul_right h2)
  refine ⟨mem2, ?_, ?_⟩
  · unfold compute_backward_pointers
    rw [hb1]
    rw [Nat.zero_mul] at r1
    rw [r1]
    simp only
    rw [r2]
  · intro y hy
    have hyL : y * c.opt_line_sz < size := (line_lt_iff _ _ _ hL0).2 hy
    by_cases hy1 : y < x1
    · have hlt : y * c.opt_line_sz < size - c.opt_stride := i1 y (Nat.zero_le _) hy1
      have hnext : chain_next (lines_per_stride c) (line_count c size) y
          = y + lines_per_stride c := by
        unfold chain_next
        rw [if_pos]
        unfold line_count
        rw [← line_lt_iff _ _ _ hL0, Nat.add_mul, ← hSeq]
        omega
      have hframe : ∀ k < SIZEOF_PTR,
          mem2 ((y + lines_per_stride c) * c.opt_line_sz + k)
            = mem1 ((y + lines_per_stride c) * c.opt_line_sz + k) := by
        intro k hk
        apply f2
        intro z _ _
        have := Nat.mod_lt (z + 1) hm
        exact line_slots_disjoint _ _ _ k hL hk (by omega)
      rw [hnext, load_congr _ _ _ hframe, l1 y (Nat.zero_le _) hlt]
    · have hnext : chain_next (lines_per_stride c) (line_count c size) y
          = (y + 1) % lines_per_stride c := by
        unfold chain_next
        rw [if_neg]
        unfold line_count
        rw [← line_lt_iff _ _ _ hL0]
        have := hx1 y (by omega)
        omega
      rw [hnext, l2 y (by omega) hyL]


/-! ## Chasing pointers along the chains -/

theorem chase_forward (mem : Mem) (L m N : Nat) (hm : 0 < m) (hmN : m ≤ N)
    (hload : ∀ y, y < N → load_ptr mem (y * L) = some (chain_next m N y * L)) :
    ∀ n x, x < N → chase mem n (x * L) = some ((chain_next m N)^[n] x * L) := by
  intro n
  induction n with
  | zero => intro x _; rfl
  | succ n ih =>
    intro x hx
    rw [chase, hload x hx]
    simp only
    rw [ih _ (chain_next_lt m N x hm hmN), Function.iterate_succ_apply]

theorem chase_backward (mem : Mem) (L m N : Nat) (hm : 0 < m) (hmN : m ≤ N)
    (hload : ∀ y, y < N → load_ptr mem (chain_next m N y * L) = some (y * L)) :
    ∀ n j x, x < N → n ≤ j →
      chase mem n ((chain_next m N)^[j] x * L) = some ((chain_next m N)^[j - n] x * L) := by
  intro n
  induction n with
  | zero => intro j x _ _; rfl
  | succ n ih =>
    intro j x hx hj
    obtain ⟨i, rfl⟩ : ∃ i, j = i + 1 := ⟨j - 1, by omega⟩
    rw [chase, Function.iterate_succ_apply', hload _ (chain_iterate_lt m N x hm hmN hx i)]
    simp only
    rw [ih i x hx (by omega), Nat.add_sub_add_right]

/-- Every line is the successor of a line. -/
theorem chain_next_surj (m N y : Nat) (hm : 0 < m) (hmN : m ≤ N) (hy : y < N) :
    ∃ z, z < N ∧ chain_next m N z = y := by
  have hN : 0 < N := by omega
  refine ⟨(chain_next m N)^[N - 1] y, chain_iterate_lt m N y hm hmN hy _, ?_⟩
  have h := chain_iterate_period m N y hm hmN hy 1
  rw [show N * 1 = (N - 1) + 1 by omega, Function.iterate_succ_apply'] at h
  exact h

theorem orbit_unique_forward (m N y : Nat) (hm : 0 < m) (hmN : m ≤ N) (hy : y < N) :
    ∃! n, (1 ≤ n ∧ n ≤ N) ∧ (chain_next m N)^[n] 0 = y := by
  have hN : 0 < N := by omega
  obtain ⟨n0, hn0, hy0⟩ := chain_orbit_covers m N hm hmN y hy
  have huniq : ∀ a b, (1 ≤ a ∧ a ≤ N) → (1 ≤ b ∧ b ≤ N) →
      (chain_next m N)^[a] 0 = (chain_next m N)^[b] 0 → a = b := by
    intro a b ha hb hab
    have h := (chain_iterate_eq_iff m N 0 hm hmN hN a b).1 hab
    rcases Nat.eq_or_lt_of_le ha.2 with rfl | ha'
    · rcases Nat.eq_or_lt_of_le hb.2 with rfl | hb'
      · rfl
      · rw [Nat.mod_self, Nat.mod_eq_of_lt hb'] at h
        omega
    · rcases Nat.eq_or_lt_of_le hb.2 with rfl | hb'
      · rw [Nat.mod_self, Nat.mod_eq_of_lt ha'] at h
        omega
      · rw [Nat.mod_eq_of_lt ha', Nat.mod_eq_of_lt hb'] at h
        exact h
  rcases Nat.eq_zero_or_pos n0 with rfl | hpos
  · refine ⟨N, ⟨⟨hN, le_refl _⟩, ?_⟩, ?_⟩
    · have := chain_iterate_period m N 0 hm hmN hN 1
      rw [Nat.mul_one] at this
      rw [this]
      simpa using hy0
    · rintro n ⟨hn, hny⟩
      apply huniq n N hn ⟨hN, le_refl _⟩
      have := chain_iterate_period m N 0 hm hmN hN 1
      rw [Nat.mul_one] at this
      rw [hny, this]
      simpa using hy0.symm
  · refine ⟨n0, ⟨⟨hpos, le_of_lt hn0⟩, hy0⟩, ?_⟩
    rintro n ⟨hn, hny⟩
    exact huniq n n0 hn ⟨hpos, le_of_lt hn0⟩ (by rw [hny, hy0])

theorem orbit_unique_backward (m N y : Nat) (hm : 0 < m) (hmN : m ≤ N) (hy : y < N) :
    ∃! n, (1 ≤ n ∧ n ≤ N) ∧ (chain_next m N)^[N - n] 0 = y := by
  have hN : 0 < N := by omega
  obtain ⟨n0, hn0, hy0⟩ := chain_orbit_covers m N hm hmN y hy
  refine ⟨N - n0, ⟨⟨by omega, by omega⟩, ?_⟩, ?_⟩
  · rw [show N - (N - n0) = n0 by omega]
    exact hy0
  · rintro n ⟨hn, hny⟩
    have h := (chain_iterate_eq_iff m N 0 hm hmN hN (N - n) n0).1 (by rw [hny, hy0])
    rw [Nat.mod_eq_of_lt (by omega), Nat.mod_eq_of_lt hn0] at h
    omega


theorem aligned_line (c : Config) (size a : Nat) (hL : 0 < c.opt_line_sz)
    (hdvd : c.opt_line_sz ∣ a) (ha : a < size) :
    ∃ y, y < line_count c size ∧ a = y * c.opt_line_sz := by
  obtain ⟨y, rfl⟩ := hdvd
  refine ⟨y, ?_, Nat.mul_comm _ _⟩
  unfold line_count
  rw [← line_lt_iff _ _ _ hL, Nat.mul_comm]
  exact ha

theorem line_aligned (c : Config) (size y : Nat) (hL : 0 < c.opt_line_sz)
    (hy : y < line_count c size) :
    c.opt_line_sz ∣ y * c.opt_line_sz ∧ y * c.opt_line_sz < size :=
  ⟨Dvd.intro_left _ rfl, (line_lt_iff _ _ _ hL).2 hy⟩

theorem forward_cycle (c : Config) (size fuel : Nat) (mem : Mem)
    (hL : SIZEOF_PTR ≤ c.opt_line_sz) (hS : 0 < c.opt_stride)
    (hdvd : c.opt_line_sz ∣ c.opt_stride) (hsz : c.opt_stride ≤ size)
    (hfit : size + c.opt_line_sz ≤ ULONG_MOD) (hfuel : size < fuel) :
    ∃ mem', compute_forward_pointers c size fuel mem = some mem' ∧
      (∀ y, y < line_count c size → load_ptr mem' (y * c.opt_line_sz)
        = some (chain_next (lines_per_stride c) (line_count c size) y * c.opt_line_sz)) ∧
      ∀ n x, x < line_count c size → chase mem' n (x * c.opt_line_sz)
        = some ((chain_next (lines_per_stride c) (line_count c size))^[n] x * c.opt_line_sz) := by
  have hP : SIZEOF_PTR = 8 := rfl
  have hm := lines_per_stride_pos c hS hdvd
  have hmN := lines_per_stride_le c size (by omega) hdvd hsz
  obtain ⟨mem', h1, h2⟩ := forward_chain c size fuel mem hL hS hdvd hsz hfit hfuel
  exact ⟨mem', h1, h2, chase_forward mem' _ _ _ hm hmN h2⟩

theorem backward_cycle (c : Config) (size fuel : Nat) (mem : Mem)
    (hL : SIZEOF_PTR ≤ c.opt_line_sz) (hS : 0 < c.opt_stride)
    (hdvd : c.opt_line_sz ∣ c.opt_stride) (hsz : c.opt_stride ≤ size)
    (hfit : size + c.opt_line_sz ≤ ULONG_MOD) (hfuel : size < fuel) :
    ∃ mem', compute_backward_pointers c size fuel mem = some mem' ∧
      (∀ y, y < line_count c size →
        load_ptr mem' (chain_next (lines_per_stride c) (line_count c size) y * c.opt_line_sz)
          = some (y * c.opt_line_sz)) ∧
      ∀ n j x, x < line_count c size → n ≤ j →
        chase mem' n ((chain_next (lines_per_stride c) (line_count c size))^[j] x * c.opt_line_sz)
          = some ((chain_next (lines_per_stride c) (line_count c size))^[j - n] x
              * c.opt_line_sz) := by
  have hP : SIZEOF_PTR = 8 := rfl
  have hm := lines_per_stride_pos c hS hdvd
  have hmN := lines_per_stride_le c size (by omega) hdvd hsz
  obtain ⟨mem', h1, h2⟩ := backward_chain c size fuel mem hL hS hdvd hsz hfit hfuel
  exact ⟨mem', h1, h2, chase_backward mem' _ _ _ hm hmN h2⟩

/-! ## The chains for line sizes of at least the pointer width -/

/-- For every line size of at least the pointer width, every stride that is
a positive multiple of it and every `size ≥ stride` with
`size + lineSize ≤ 2 ^ 64`, either builder ends, each line-aligned offset of
`[0, size)` then holds a pointer to a line-aligned offset of `[0, size)`, and
the chain is one cycle through all `N = ceil(size / lineSize)` lines: of the
first `N` dereferences of `pointer_scan`, which starts at offset 0, exactly
one reaches each line-aligned offset, the `N`-th returns to offset 0 and no
earlier one does.  The pointers found do not depend on the previous contents
of the buffer. -/
theorem chain_single_cycle (c : Config) (size fuel : Nat) (mem other : Mem)
    (hL : SIZEOF_PTR ≤ c.opt_line_sz) (hS : 0 < c.opt_stride)
    (hdvd : c.opt_line_sz ∣ c.opt_stride) (hsz : c.opt_stride ≤ size)
    (hfit : size + c.opt_line_sz ≤ ULONG_MOD) (hfuel : size < fuel) :
    ∃ mem', compute_pointers c size fuel mem = some mem' ∧
      (∀ a, c.opt_line_sz ∣ a → a < size →
        ∃ b, load_ptr mem' a = some b ∧ c.opt_line_sz ∣ b ∧ b < size) ∧
      (∃ visit : Nat → Nat,
        (∀ n, n ≤ line_count c size → pointer_scan mem' n = some (visit n)) ∧
        visit (line_count c size) = 0 ∧
        (∀ n, 0 < n → n < line_count c size → visit n ≠ 0) ∧
        ∀ a, c.opt_line_sz ∣ a → a < size →
          ∃! n, (1 ≤ n ∧ n ≤ line_count c size) ∧ visit n = a) ∧
      ∃ mem'', compute_pointers c size fuel other = some mem'' ∧
        ∀ a, c.opt_line_sz ∣ a → a < size → load_ptr mem'' a = load_ptr mem' a := by
  have hP : SIZEOF_PTR = 8 := rfl
  have hL0 : 0 < c.opt_line_sz := by omega
  have hm := lines_per_stride_pos c hS hdvd
  have hmN := lines_per_stride_le c size hL0 hdvd hsz
  have hN : 0 < line_count c size := by omega
  have hper := chain_iterate_period _ _ 0 hm hmN hN 1
  rw [Nat.mul_one] at hper
  have hcancel : ∀ u v, u * c.opt_line_sz = v * c.opt_line_sz → u = v :=
    fun u v h => Nat.eq_of_mul_eq_mul_right hL0 h
  cases hfw : c.opt_forward with
  | true =>
    obtain ⟨mem', h1, h2, h3⟩ := forward_cycle c size fuel mem hL hS hdvd hsz hfit hfuel
    obtain ⟨mem'', k1, k2, _⟩ := forward_cycle c size fuel other hL hS hdvd hsz hfit hfuel
    refine ⟨mem', by rw [compute_pointers, hfw]; exact h1, ?_, ?_, mem'',
      by rw [compute_pointers, hfw]; exact k1, ?_⟩
    · intro a ha1 ha2
      obtain ⟨y, hy, rfl⟩ := aligned_line c size a hL0 ha1 ha2
      have := line_aligned c size _ hL0 (chain_next_lt _ _ y hm hmN)
      exact ⟨_, h2 y hy, this.1, this.2⟩
    · refine ⟨fun n => (chain_next (lines_per_stride c) (line_count c size))^[n] 0
          * c.opt_line_sz, ?_, ?_, ?_, ?_⟩
      · intro n _
        have := h3 n 0 hN
        rw [Nat.zero_mul] at this
        exact this
      · show (chain_next (lines_per_stride c) (line_count c size))^[line_count c size] 0
            * c.opt_line_sz = 0
        rw [hper, Nat.zero_mul]
      · intro n hn0 hnN h
        have h' : (chain_next (lines_per_stride c) (line_count c size))^[n] 0 * c.opt_line_sz
            = 0 * c.opt_line_sz := by rw [Nat.zero_mul]; exact h
        exact chain_iterate_ne _ _ 0 hm hmN hN n hn0 hnN (hcancel _ _ h')
      · intro a ha1 ha2
        obtain ⟨y, hy, rfl⟩ := aligned_line c size a hL0 ha1 ha2
        obtain ⟨n, hn1, hn2⟩ := orbit_unique_forward _ _ y hm hmN hy
        refine ⟨n, ⟨hn1.1, congrArg (fun t => t * c.opt_line_sz) hn1.2⟩, ?_⟩
        rintro n' ⟨hn', he⟩
        exact hn2 n' ⟨hn', hcancel _ _ he⟩
    · intro a ha1 ha2
      obtain ⟨y, hy, rfl⟩ := aligned_line c size a hL0 ha1 ha2
      rw [h2 y hy, k2 y hy]
  | false =>
    obtain ⟨mem', h1, h2, h3⟩ := backward_cycle c size fuel mem hL hS hdvd hsz hfit hfuel
    obtain ⟨mem'', k1, k2, _⟩ := backward_cycle c size fuel other hL hS hdvd hsz hfit hfuel
    refine ⟨mem', by rw [compute_pointers, hfw]; exact h1, ?_, ?_, mem'',
      by rw [compute_pointers, hfw]; exact k1, ?_⟩
    · intro a ha1 ha2
      obtain ⟨y, hy, rfl⟩ := aligned_line c size a hL0 ha1 ha2
      obtain ⟨z, hz, rfl⟩ := chain_next_surj _ _ y hm hmN hy
      have := line_aligned c size _ hL0 hz
      exact ⟨_, h2 z hz, this.1, this.2⟩
    · refine ⟨fun n => (chain_next (lines_per_stride c) (line_count c size))^[line_count c size - n] 0
          * c.opt_line_sz, ?_, ?_, ?_, ?_⟩
      · intro n hn
        have := h3 n (line_count c size) 0 hN hn
        rw [hper, Nat.zero_mul] at this
        exact this
      · show (chain_next (lines_per_stride c) (line_count c size))^[line_count c size
            - line_count c size] 0 * c.opt_line_sz = 0
        rw [Nat.sub_self, Function.iterate_zero_apply, Nat.zero_mul]
      · intro n hn0 hnN h
        have h' : (chain_next (lines_per_stride c) (line_count c size))^[line_count c size - n] 0
            * c.opt_line_sz = 0 * c.opt_line_sz := by rw [Nat.zero_mul]; exact h
        exact chain_iterate_ne _ _ 0 hm hmN hN _ (by omega) (by omega) (hcancel _ _ h')
      · intro a ha1 ha2
        obtain ⟨y, hy, rfl⟩ := aligned_line c size a hL0 ha1 ha2
        obtain ⟨n, hn1, hn2⟩ := orbit_unique_backward _ _ y hm hmN hy
        refine ⟨n, ⟨hn1.1, congrArg (fun t => t * c.opt_line_sz) hn1.2⟩, ?_⟩
        rintro n' ⟨hn', he⟩
        exact hn2 n' ⟨hn', hcancel _ _ he⟩
    · intro a ha1 ha2
      obtain ⟨y, hy, rfl⟩ := aligned_line c size a hL0 ha1 ha2
      obtain ⟨z, hz, rfl⟩ := chain_next_surj _ _ y hm hmN hy
      rw [h2 z hz, k2 z hz]


/-! ## Scans that return -/

/-- In pointer mode with a line size of at least the pointer width, `scan` returns. -/
theorem scan_pointer_some (c : Config) (size fuel : Nat) (mem : Mem)
    (hmode : c.opt_index_based = false)
    (hL : SIZEOF_PTR ≤ c.opt_line_sz) (hS : 0 < c.opt_stride)
    (hdvd : c.opt_line_sz ∣ c.opt_stride) (hsz : c.opt_stride ≤ size)
    (hfit : size + c.opt_line_sz ≤ ULONG_MOD) (hfuel : size < fuel) :
    ∃ mem', scan c size fuel mem = some mem' := by
  have hP : SIZEOF_PTR = 8 := rfl
  have hL0 : 0 < c.opt_line_sz := by omega
  have hm := lines_per_stride_pos c hS hdvd
  have hmN := lines_per_stride_le c size hL0 hdvd hsz
  have hN : 0 < line_count c size := by omega
  unfold scan
  rw [hmode]
  simp only [Bool.false_eq_true, if_false]
  cases hfw : c.opt_forward with
  | true =>
    obtain ⟨mem', h1, _, h3⟩ := forward_cycle c size fuel mem hL hS hdvd hsz hfit hfuel
    have hscan := h3 c.opt_accesses 0 hN
    rw [Nat.zero_mul] at hscan
    refine ⟨mem', ?_⟩
    rw [compute_pointers, hfw]
    simp only [if_true]
    rw [h1]
    simp only
    unfold pointer_scan
    rw [hscan]
  | false =>
    obtain ⟨mem', h1, _, h3⟩ := backward_cycle c size fuel mem hL hS hdvd hsz hfit hfuel
    have hper := chain_iterate_period _ _ 0 hm hmN hN c.opt_accesses
    have hscan := h3 c.opt_accesses (line_count c size * c.opt_accesses) 0 hN
      (Nat.le_mul_of_pos_left _ hN)
    rw [hper, Nat.zero_mul] at hscan
    refine ⟨mem', ?_⟩
    rw [compute_pointers, hfw]
    simp only [Bool.false_eq_true, if_false]
    rw [h1]
    simp only
    unfold pointer_scan
    rw [hscan]

theorem run_loop_next (c : Config) (fuel n size size1 : Nat) (mem mem1 : Mem)
    (hle : size ≤ c.opt_max_size) (hscan : scan c size fuel mem = some mem1)
    (hstep : step c.opt_line_sz fuel size = some size1) :
    run_loop c fuel (n + 1) size mem
      = ⟨size :: (run_loop c fuel n size1 mem1).tested, (run_loop c fuel n size1 mem1).finished⟩ := by
  rw [run_loop, if_pos hle, hscan]
  simp only
  rw [hstep]

theorem run_loop_end (c : Config) (fuel n size : Nat) (mem : Mem)
    (hgt : c.opt_max_size < size) : run_loop c fuel (n + 1) size mem = ⟨[], true⟩ := by
  rw [run_loop, if_neg (by omega)]

/-- The end-to-end scenario: once `malloc` has returned a block, whatever its
contents, the run tests 512, 1024, 2048, 3072 and 4096 and reaches the end of
its loop. -/
theorem run_test_scenario (mem : Mem) (fuel n : Nat) (hfuel : 4096 < fuel) (hn : 6 ≤ n) :
    run_test cfg_scenario (some mem) fuel n = ⟨[512, 1024, 2048, 3072, 4096], true⟩ := by
  obtain ⟨k, rfl⟩ : ∃ k, n = k + 6 := ⟨n - 6, by omega⟩
  have hs : ∀ size m, 512 ≤ size → size ≤ 4096 → ∃ m', scan cfg_scenario size fuel m = some m' :=
    fun size m h1 h2 => scan_pointer_some cfg_scenario size fuel m rfl (by decide) (by decide)
      (by decide) h1 (by unfold ULONG_MOD; show size + 64 ≤ 2 ^ 64; omega) (by omega)
  have hstep : ∀ s r, step 64 52 s = some r → step cfg_scenario.opt_line_sz fuel s = some r := by
    intro s r h
    have := step_fuel_mono 64 52 (fuel - 52) s r h
    rw [show 52 + (fuel - 52) = fuel by omega] at this
    exact this
  obtain ⟨m1, h1⟩ := hs 512 (warmup_memory mem cfg_scenario.opt_max_size) (by omega) (by omega)
  obtain ⟨m2, h2⟩ := hs 1024 m1 (by omega) (by omega)
  obtain ⟨m3, h3⟩ := hs 2048 m2 (by omega) (by omega)
  obtain ⟨m4, h4⟩ := hs 3072 m3 (by omega) (by omega)
  obtain ⟨m5, h5⟩ := hs 4096 m4 (by omega) (by omega)
  have hmal : malloc (some mem) cfg_scenario.opt_max_size = some mem := by
    unfold malloc
    rw [if_neg (by decide)]
  unfold run_test
  rw [hmal]
  simp only
  rw [show first_size cfg_scenario = 512 by decide,
    run_loop_next cfg_scenario fuel (k + 5) 512 1024 _ m1 (by decide) h1 (hstep _ _ (by decide)),
    run_loop_next cfg_scenario fuel (k + 4) 1024 2048 _ m2 (by decide) h2 (hstep _ _ (by decide)),
    run_loop_next cfg_scenario fuel (k + 3) 2048 3072 _ m3 (by decide) h3 (hstep _ _ (by decide)),
    run_loop_next cfg_scenario fuel (k + 2) 3072 4096 _ m4 (by decide) h4 (hstep _ _ (by decide)),
    run_loop_next cfg_scenario fuel (k + 1) 4096 6144 _ m5 (by decide) h5 (hstep _ _ (by decide)),
    run_loop_end cfg_scenario fuel k 6144 m5 (by decide)]


/-! ## Claims about the pointer chains -/

/-- C10: the code departs from the claim.  The pointer-mode configurations
with line size 4 and stride 8 pass the validation and their sweep starts at
size 512.  Both builders return on 512 bytes, but the 8-byte pointers they
store 4 bytes apart overlap: `pointer_scan` reads bytes that are not those of
one stored pointer at its first dereference in the forward chain and at its
third in the backward chain, so the first `scan` of the run does not
return. -/
theorem chain_broken_by_overlap :
    parse_command_line cfg_line4 = true ∧ cfg_line4.InRange ∧ first_size cfg_line4 = 512 ∧
      (compute_pointers cfg_line4 512 129 blank).isSome = true ∧
      (compute_pointers cfg_line4 512 129 blank).bind (fun m => pointer_scan m 1) = none ∧
      run_test cfg_line4 (some blank) 129 2 = ⟨[512], false⟩ ∧
      parse_command_line cfg_line4_back = true ∧ cfg_line4_back.InRange ∧
      first_size cfg_line4_back = 512 ∧
      (compute_pointers cfg_line4_back 512 129 blank).isSome = true ∧
      (compute_pointers cfg_line4_back 512 129 blank).bind (fun m => pointer_scan m 3) = none ∧
      run_test cfg_line4_back (some blank) 129 2 = ⟨[512], false⟩ := by
  decide

/-- For every line size of at least the pointer width, every stride that is
a positive multiple of it and every `size ≥ stride` with
`size + lineSize ≤ 2 ^ 64`, both builders end, and for all line-aligned
offsets `a` and `b` of `[0, size)` the forward chain holds at `a` a pointer
to `b` if and only if the backward chain holds at `b` a pointer to `a`;
following a forward pointer and then a backward pointer returns to the
starting offset. -/
theorem backward_reverses_forward (c : Config) (size fuel : Nat) (memF memB : Mem)
    (hL : SIZEOF_PTR ≤ c.opt_line_sz) (hS : 0 < c.opt_stride)
    (hdvd : c.opt_line_sz ∣ c.opt_stride) (hsz : c.opt_stride ≤ size)
    (hfit : size + c.opt_line_sz ≤ ULONG_MOD) (hfuel : size < fuel) :
    ∃ fw bw, compute_forward_pointers c size fuel memF = some fw ∧
      compute_backward_pointers c size fuel memB = some bw ∧
      (∀ a b, c.opt_line_sz ∣ a → a < size → c.opt_line_sz ∣ b → b < size →
        (load_ptr fw a = some b ↔ load_ptr bw b = some a)) ∧
      ∀ a, c.opt_line_sz ∣ a → a < size →
        ∃ b, load_ptr fw a = some b ∧ load_ptr bw b = some a := by
  have hP : SIZEOF_PTR = 8 := rfl
  have hL0 : 0 < c.opt_line_sz := by omega
  have hm := lines_per_stride_pos c hS hdvd
  have hmN := lines_per_stride_le c size hL0 hdvd hsz
  have hcancel : ∀ u v, u * c.opt_line_sz = v * c.opt_line_sz → u = v :=
    fun u v h => Nat.eq_of_mul_eq_mul_right hL0 h
  obtain ⟨fw, h1, h2⟩ := forward_chain c size fuel memF hL hS hdvd hsz hfit hfuel
  obtain ⟨bw, k1, k2⟩ := backward_chain c size fuel memB hL hS hdvd hsz hfit hfuel
  refine ⟨fw, bw, h1, k1, ?_, ?_⟩
  · intro a b ha1 ha2 hb1 hb2
    obtain ⟨y, hy, rfl⟩ := aligned_line c size a hL0 ha1 ha2
    obtain ⟨z, hz, rfl⟩ := aligned_line c size b hL0 hb1 hb2
    constructor
    · intro h
      rw [h2 y hy] at h
      have hz' := hcancel _ _ (Option.some.inj h)
      rw [← hz']
      exact k2 y hy
    · intro h
      obtain ⟨w, hw, rfl⟩ := chain_next_surj _ _ z hm hmN hz
      rw [k2 w hw] at h
      have hw' := hcancel _ _ (Option.some.inj h)
      rw [← hw']
      exact h2 w hw
  · intro a ha1 ha2
    obtain ⟨y, hy, rfl⟩ := aligned_line c size a hL0 ha1 ha2
    exact ⟨_, h2 y hy, k2 y hy⟩

/-- C5: the code departs from the claim.  In the accepted pointer-mode
configuration with line size 4 and stride 8, at the first tested size 512,
both builders return; the backward chain holds at offset 508 a pointer to
offset 500, but the forward chain does not hold at offset 500 a pointer to
offset 508: the 8-byte pointer stored there was partly overwritten by the
stores at offsets 504 and 508. -/
theorem overlap_breaks_reversal :
    parse_command_line cfg_line4 = true ∧ cfg_line4.InRange ∧ first_size cfg_line4 = 512 ∧
      (compute_backward_pointers cfg_line4 512 129 blank).isSome = true ∧
      (compute_forward_pointers cfg_line4 512 129 blank).isSome = true ∧
      (compute_backward_pointers cfg_line4 512 129 blank).bind (fun m => load_ptr m 508)
        = some 500 ∧
      (compute_forward_pointers cfg_line4 512 129 blank).bind (fun m => load_ptr m 500) = none ∧
      cfg_line4.opt_line_sz ∣ 500 ∧ cfg_line4.opt_line_sz ∣ 508 := by
  decide

/-- C4, as amended: for stride 512, line size 64 and size 4096 the forward
builder ends and the successor map on the 64 line-aligned offsets of
`[0, 4096)` is one cycle of length 64: from every line-aligned offset,
following `64 * k` pointers returns to that offset and following fewer than
64 (and at least one) does not, every line-aligned offset is reached from
offset 0, and following 8 pointers from offset 0 leads to offset 64. -/
theorem forward_chain_one_cycle_of_64 (fuel : Nat) (mem : Mem) (hfuel : 4096 < fuel) :
    ∃ mem', compute_forward_pointers cfg_forward 4096 fuel mem = some mem' ∧
      (∀ a, 64 ∣ a → a < 4096 →
        (∀ k, chase mem' (64 * k) a = some a) ∧
        (∀ n, 0 < n → n < 64 → chase mem' n a ≠ some a) ∧
        ∃ n, n < 64 ∧ chase mem' n 0 = some a) ∧
      chase mem' 8 0 = some 64 := by
  have hN : line_count cfg_forward 4096 = 64 := by decide
  have hmv : lines_per_stride cfg_forward = 8 := by decide
  have hLv : cfg_forward.opt_line_sz = 64 := rfl
  obtain ⟨mem', h1, _, h3⟩ := forward_cycle cfg_forward 4096 fuel mem (by decide) (by decide)
    (by decide) (by decide) (by decide) hfuel
  rw [hN, hmv, hLv] at h3
  refine ⟨mem', h1, ?_, ?_⟩
  · intro a ha1 ha2
    obtain ⟨y, hy, rfl⟩ := aligned_line cfg_forward 4096 a (by decide) ha1 ha2
    rw [hN] at hy
    rw [hLv]
    refine ⟨?_, ?_, ?_⟩
    · intro k
      rw [h3 _ y hy, chain_iterate_period 8 64 y (by decide) (by decide) hy k]
    · intro n hn0 hn h
      rw [h3 _ y hy] at h
      have := Nat.eq_of_mul_eq_mul_right (by decide : 0 < 64) (Option.some.inj h)
      exact chain_iterate_ne 8 64 y (by decide) (by decide) hy n hn0 hn this
    · obtain ⟨n, hn, hny⟩ := chain_orbit_covers 8 64 (by decide) (by decide) y hy
      refine ⟨n, hn, ?_⟩
      have := h3 n 0 (by decide)
      rw [Nat.zero_mul] at this
      rw [this, hny]
  · have := h3 8 0 (by decide)
    rw [Nat.zero_mul] at this
    rw [this]
    decide

/-- Witness of `forward_chain_one_cycle_of_64`: a buffer without pointers. -/
theorem forward_chain_one_cycle_of_64_witness :
    ∃ mem', compute_forward_pointers cfg_forward 4096 4097 blank = some mem' ∧
      (∀ a, 64 ∣ a → a < 4096 →
        (∀ k, chase mem' (64 * k) a = some a) ∧
        (∀ n, 0 < n → n < 64 → chase mem' n a ≠ some a) ∧
        ∃ n, n < 64 ∧ chase mem' n 0 = some a) ∧
      chase mem' 8 0 = some 64 :=
  forward_chain_one_cycle_of_64 4097 blank (by decide)

/-- C4 as stated fails: in the forward chain built for stride 512, line size
64 and size 4096, following `8 * 1` pointers from offset 0 ends at offset 64
and not at offset 0, so offsets 0 and 64 lie on one cycle and that cycle has
more than 8 line-slots. -/
theorem eight_steps_leave_start :
    (compute_forward_pointers cfg_forward 4096 65 blank).bind (fun m => chase m (8 * 1) 0)
      = some 64 := by
  decide


/-! ## Claims about the index-based scan and the validation -/

theorem pass_reads_bounds (c : Config) (size : Nat) (hL : 0 < c.opt_line_sz)
    (hS : 0 < c.opt_stride) (hdvd : c.opt_line_sz ∣ c.opt_stride) (hsz : c.opt_stride ≤ size) :
    1 ≤ size / c.opt_stride ∧ 1 ≤ c.opt_stride / c.opt_line_sz ∧
      1 ≤ pass_reads c size ∧ pass_reads c size ≤ size := by
  have h1 : 1 ≤ size / c.opt_stride := (Nat.le_div_iff_mul_le hS).2 (by omega)
  have h2 : 1 ≤ c.opt_stride / c.opt_line_sz :=
    (Nat.le_div_iff_mul_le hL).2 (by have := Nat.le_of_dvd hS hdvd; omega)
  refine ⟨h1, h2, Nat.mul_pos h1 h2, ?_⟩
  unfold pass_reads
  calc size / c.opt_stride * (c.opt_stride / c.opt_line_sz)
      ≤ size / c.opt_stride * c.opt_stride := Nat.mul_le_mul_left _ (Nat.div_le_self _ _)
    _ ≤ size := Nat.div_mul_le_self _ _

/-- For every accepted index-mode configuration with a non-zero stride and at
least one requested access, and every size of the sweep, `index_scan`
computes `repetitions = ceil(accessCount / (nreads * noffsets))`, the least
number of passes whose access count `repetitions * noffsets * nreads` is at
least `accessCount`, provided that count is below `2 ^ 64`; the divisor
`accesses` is then exactly that count. -/
theorem repetitions_ceil (c : Config) (sf n size : Nat)
    (hok : parse_command_line c = true) (hr : c.InRange) (_hidx : c.opt_index_based = true)
    (hsize : size ∈ size_sequence c sf n (first_size c))
    (hS : 0 < c.opt_stride) (ha : 1 ≤ c.opt_accesses)
    (hfit : (c.opt_accesses + pass_reads c size - 1) / pass_reads c size * pass_reads c size
      < ULONG_MOD) :
    ∃ noffsets nreads repetitions,
      index_scan_noffsets c = some noffsets ∧ noffsets = c.opt_stride / c.opt_line_sz ∧
      index_scan_nreads c size = some nreads ∧ nreads = size / c.opt_stride ∧
      index_scan_repetitions c size = some repetitions ∧
      repetitions = (c.opt_accesses + nreads * noffsets - 1) / (nreads * noffsets) ∧
      IsLeast {r | c.opt_accesses ≤ r * noffsets * nreads} repetitions ∧
      index_scan_accesses c size = some (repetitions * noffsets * nreads) := by
  obtain ⟨hL, hmin, hstr, hdvd, _⟩ := parse_command_line_true c hok
  obtain ⟨hf1, hf2⟩ := first_size_ge c
  have hM : MIN_SIZE = 512 := rfl
  have hU : ULONG_MOD = 2 ^ 64 := rfl
  obtain ⟨hle, hcase⟩ := size_sequence_mem c sf hr.1 n (first_size c) (by omega) size hsize
  have hsz : c.opt_stride ≤ size := by rcases hcase with rfl | ⟨h, _⟩ <;> omega
  obtain ⟨b1, b2, b3, b4⟩ := pass_reads_bounds c size hL hS hdvd hsz
  have hmax := hr.2.2.2
  have hacc := hr.2.1
  unfold pass_reads at hfit b3 b4
  generalize hd : size / c.opt_stride * (c.opt_stride / c.opt_line_sz) = d at hfit b3 b4
  have hdmod : d % ULONG_MOD = d := Nat.mod_eq_of_lt (by omega)
  have hamod : (c.opt_accesses + ULONG_MOD - 1) % ULONG_MOD = c.opt_accesses - 1 := by
    rw [show c.opt_accesses + ULONG_MOD - 1 = (c.opt_accesses - 1) + ULONG_MOD by omega,
      Nat.add_mod_right]
    exact Nat.mod_eq_of_lt (by omega)
  have hceil : (c.opt_accesses + d - 1) / d = (c.opt_accesses - 1) / d + 1 := by
    rw [show c.opt_accesses + d - 1 = (c.opt_accesses - 1) + d by omega, Nat.add_div_right _ b3]
  have hrep_le : (c.opt_accesses + d - 1) / d ≤ (c.opt_accesses + d - 1) / d * d :=
    Nat.le_mul_of_pos_right _ b3
  have hrmod : ((c.opt_accesses - 1) / d + 1) % ULONG_MOD = (c.opt_accesses + d - 1) / d := by
    rw [← hceil]
    exact Nat.mod_eq_of_lt (by omega)
  have hrep : index_scan_repetitions c size = some ((c.opt_accesses + d - 1) / d) := by
    unfold index_scan_repetitions index_scan_noffsets index_scan_nreads
    rw [if_neg (by omega), if_neg (by omega)]
    simp only
    rw [hd, hdmod, if_neg (by omega), hamod, hrmod]
  have hprod : ∀ r, r * (c.opt_stride / c.opt_line_sz) * (size / c.opt_stride) = r * d := by
    intro r
    rw [← hd]
    ring
  refine ⟨_, _, (c.opt_accesses + d - 1) / d, ?_, rfl, ?_, rfl, hrep, by rw [hd], ?_, ?_⟩
  · unfold index_scan_noffsets
    rw [if_neg (by omega)]
  · unfold index_scan_nreads
    rw [if_neg (by omega)]
  · constructor
    · show c.opt_accesses ≤ _
      rw [hprod, hceil]
      have := Nat.div_add_mod (c.opt_accesses - 1) d
      have := Nat.mod_lt (c.opt_accesses - 1) b3
      rw [Nat.add_mul, Nat.mul_comm ((c.opt_accesses - 1) / d) d]
      omega
    · intro r hrm
      have hrm' : c.opt_accesses ≤ r * d := by rw [← hprod]; exact hrm
      rw [hceil]
      by_contra hc
      have h1 : r * d ≤ (c.opt_accesses - 1) / d * d := Nat.mul_le_mul_right d (by omega)
      have h2 := Nat.div_mul_le_self (c.opt_accesses - 1) d
      omega
  · unfold index_scan_accesses
    rw [hrep]
    unfold index_scan_noffsets index_scan_nreads
    rw [if_neg (by omega), if_neg (by omega)]
    simp only
    have hlt : (c.opt_accesses + d - 1) / d * (c.opt_stride / c.opt_line_sz)
        * (size / c.opt_stride) < ULONG_MOD := by rw [hprod]; exact hfit
    have hlt1 : (c.opt_accesses + d - 1) / d * (c.opt_stride / c.opt_line_sz) < ULONG_MOD :=
      lt_of_le_of_lt (Nat.le_mul_of_pos_right _ b1) hlt
    rw [Nat.mod_eq_of_lt hlt1, Nat.mod_eq_of_lt hlt]

/-- C8: the code departs from the claim.  The index-mode configuration with
line size 64 and stride 0 passes the validation, its sweep starts at size 512,
and `index_scan` then divides by the zero stride.  (In pointer mode every
accepted configuration has a stride that is a positive multiple of the
non-zero line size; every accepted configuration has a non-zero line size
dividing the stride; stride 500 with line size 64 is rejected.) -/
theorem zero_stride_accepted :
    parse_command_line cfg_stride0 = true ∧ cfg_stride0.InRange ∧
      cfg_stride0.opt_stride = 0 ∧ first_size cfg_stride0 = 512 ∧
      index_scan_nreads cfg_stride0 512 = none ∧
      (∀ fuel, index_scan cfg_stride0 512 fuel = none) ∧
      (∀ c, parse_command_line c = true →
        0 < c.opt_line_sz ∧ c.opt_line_sz ∣ c.opt_stride ∧
        (c.opt_index_based = false → 0 < c.opt_stride ∧ c.opt_line_sz ≤ c.opt_stride)) ∧
      ∀ c, c.opt_stride = 500 → c.opt_line_sz = 64 → parse_command_line c = false := by
  refine ⟨by decide, by decide, rfl, by decide, by decide, fun fuel => rfl, ?_, ?_⟩
  · intro c hok
    obtain ⟨hL, _, _, hdvd, hp⟩ := parse_command_line_true c hok
    refine ⟨hL, hdvd, fun hi => ?_⟩
    have h8 := hp hi
    have hP : SIZEOF_PTR = 8 := rfl
    exact ⟨by omega, Nat.le_of_dvd (by omega) hdvd⟩
  · intro c hs hl
    unfold parse_command_line
    rw [hs, hl]
    simp

/-- C6: the code departs from the claim.  In the accepted index-mode
configuration with line size 64, stride 2048 and 1000 requested accesses the
sweep tests the size 3072; there the three loops of `index_scan` execute 1536
reads while the divisor `repetitions * noffsets * nreads` is 1024. -/
theorem index_scan_undercounts :
    parse_command_line cfg_index2048 = true ∧ cfg_index2048.InRange ∧
      run_test cfg_index2048 (some blank) 52 4 = ⟨[2048, 3072, 4096], true⟩ ∧
      index_scan cfg_index2048 3072 33 = some (1024, 1536) := by
  decide


/-! ## The passes of the index-based scan -/

theorem index_scan_inner_shift (c : Config) (size a : Nat) :
    ∀ fuel j reads, index_scan_inner c size fuel j (reads + a)
      = (index_scan_inner c size fuel j reads).map (fun r => r + a) := by
  intro fuel
  induction fuel with
  | zero => intro j reads; rfl
  | succ n ih =>
    intro j reads
    rw [index_scan_inner, index_scan_inner]
    split
    · rw [show reads + a + 1 = reads + 1 + a by omega]
      exact ih _ _
    · rfl

theorem index_scan_middle_shift (c : Config) (size fuel a : Nat) :
    ∀ k offset reads, index_scan_middle c size fuel k offset (reads + a)
      = (index_scan_middle c size fuel k offset reads).map (fun r => r + a) := by
  intro k
  induction k with
  | zero => intro offset reads; rfl
  | succ n ih =>
    intro offset reads
    rw [index_scan_middle, index_scan_middle]
    split
    · rw [index_scan_inner_shift]
      cases index_scan_inner c size fuel offset reads with
      | none => rfl
      | some r => exact ih _ _
    · rfl

/-- When one pass executes `P` reads, the outer loop with enough fuel executes
`P` reads for each of its remaining repetitions. -/
theorem index_scan_outer_some (c : Config) (size fuel R P : Nat) (hR : R < ULONG_MOD)
    (hP : index_scan_middle c size fuel fuel 0 0 = some P) :
    ∀ k i reads, i ≤ R → R - i < k →
      index_scan_outer c size fuel R k i reads = some (reads + (R - i) * P) := by
  intro k
  induction k with
  | zero => intro i reads _ h; omega
  | succ n ih =>
    intro i reads hi hk
    rw [index_scan_outer]
    split
    · rename_i hlt
      have hm : index_scan_middle c size fuel fuel 0 reads = some (reads + P) := by
        have := index_scan_middle_shift c size fuel reads fuel 0 0
        rw [Nat.zero_add, hP] at this
        rw [this]
        simp [Nat.add_comm]
      rw [hm]
      simp only
      rw [Nat.mod_eq_of_lt (by omega), ih (i + 1) _ (by omega) (by omega)]
      congr 1
      rw [show R - i = (R - (i + 1)) + 1 by omega, Nat.add_mul]
      omega
    · have : R - i = 0 := by omega
      rw [this, Nat.zero_mul, Nat.add_zero]

/-- With no more fuel than repetitions left, the outer loop does not return. -/
theorem index_scan_outer_none (c : Config) (size fuel R : Nat) (hR : R < ULONG_MOD) :
    ∀ k i reads, i + k ≤ R → index_scan_outer c size fuel R k i reads = none := by
  intro k
  induction k with
  | zero => intro i reads _; rfl
  | succ n ih =>
    intro i reads hk
    rw [index_scan_outer, if_pos (by omega)]
    cases index_scan_middle c size fuel fuel 0 reads with
    | none => rfl
    | some r =>
      simp only
      rw [Nat.mod_eq_of_lt (by omega)]
      exact ih _ _ (by omega)

/-- The loops of `index_scan` repeat the pass `repetitions` times: when one
pass executes `P` reads, `index_scan` executes `repetitions * P` reads. -/
theorem index_scan_repeats (c : Config) (size fuel R A P : Nat)
    (hrep : index_scan_repetitions c size = some R) (hacc : index_scan_accesses c size = some A)
    (hR : R < ULONG_MOD) (hP : index_scan_middle c size fuel fuel 0 0 = some P)
    (hfuel : R < fuel) : index_scan c size fuel = some (A, R * P) := by
  unfold index_scan
  rw [hrep, hacc]
  simp only
  rw [index_scan_outer_some c size fuel R P hR hP fuel 0 0 (Nat.zero_le _) (by omega)]
  simp

theorem index_scan_starved (c : Config) (size fuel R : Nat)
    (hrep : index_scan_repetitions c size = some R) (hR : R < ULONG_MOD) (hfuel : fuel ≤ R) :
    index_scan c size fuel = none := by
  unfold index_scan
  rw [hrep]
  cases index_scan_accesses c size with
  | none => rfl
  | some A =>
    simp only
    rw [index_scan_outer_none c size fuel R hR fuel 0 0 (by omega)]


theorem pass_access0 (f : Nat) :
    index_scan_middle cfg_access0 512 (f + 9) (f + 9) 0 0 = some 8 := by
  simp [index_scan_middle, index_scan_inner, cfg_access0, ULONG_MOD, UINT_MOD]

/-- C7: the code departs from the claim.  The index-mode configuration that
requests no access passes the validation and its sweep starts at size 512,
where `nreads * noffsets = 8`.  There `ceil(0 / 8) = 0`, but `index_scan`
computes `repetitions = 2 ^ 61` and its loops repeat the pass `2 ^ 61` times,
`2 ^ 64` reads in all (they do not return on less fuel), while the divisor
`accesses` wraps to 0.  With `2 ^ 64 - 1` accesses requested the effective
access count computed in `unsigned long` is 0, below the request. -/
theorem repetitions_not_ceil :
    parse_command_line cfg_access0 = true ∧ cfg_access0.InRange ∧
      first_size cfg_access0 = 512 ∧
      index_scan_repetitions cfg_access0 512 = some (2 ^ 61) ∧
      (cfg_access0.opt_accesses + 8 - 1) / 8 = 0 ∧
      (∀ fuel, 2 ^ 61 < fuel → index_scan cfg_access0 512 fuel = some (0, 2 ^ 61 * 8)) ∧
      (∀ fuel, fuel ≤ 2 ^ 61 → index_scan cfg_access0 512 fuel = none) ∧
      parse_command_line cfg_access_max = true ∧ cfg_access_max.InRange ∧
      first_size cfg_access_max = 512 ∧
      index_scan_repetitions cfg_access_max 512 = some (2 ^ 61) ∧
      index_scan_accesses cfg_access_max 512 = some 0 ∧ 0 < cfg_access_max.opt_accesses := by
  have hrep : index_scan_repetitions cfg_access0 512 = some (2 ^ 61) := by decide
  have hacc : index_scan_accesses cfg_access0 512 = some 0 := by decide
  refine ⟨by decide, by decide, by decide, hrep, by decide, ?_, ?_, by decide, by decide,
    by decide, by decide, by decide, by decide⟩
  · intro fuel hfuel
    obtain ⟨f, rfl⟩ : ∃ f, fuel = f + 9 := ⟨fuel - 9, by omega⟩
    exact index_scan_repeats cfg_access0 512 (f + 9) (2 ^ 61) 0 8 hrep hacc (by decide)
      (pass_access0 f) hfuel
  · intro fuel hfuel
    exact index_scan_starved cfg_access0 512 fuel (2 ^ 61) hrep (by decide) hfuel


/-! ## Claims about the size sweep -/

theorem run_test_nonempty (c : Config) (mem : Mem) (fuel n : Nat)
    (hmax : c.opt_max_size ≤ PTRDIFF_MAX) (hfs : first_size c ≤ c.opt_max_size) (hn : 1 ≤ n) :
    (run_test c (some mem) fuel n).tested ≠ [] := by
  obtain ⟨k, rfl⟩ : ∃ k, n = k + 1 := ⟨n - 1, by omega⟩
  unfold run_test malloc
  rw [if_neg (by omega)]
  simp only
  rw [run_loop, if_pos hfs]
  split
  · simp
  · split <;> simp

/-- With `opt_max_size = 2 ^ 63` the run exits at `malloc` and tests no size. -/
theorem run_test_huge (heap : Option Mem) (fuel n : Nat) :
    run_test cfg_huge heap fuel n = ⟨[], false⟩ := by
  unfold run_test malloc
  rw [if_pos (by decide)]

/-- C1: for every valid configuration (one that passes the checks of
`parse_command_line`), whatever `malloc` returns and however far the run
gets, the sizes that `run_test` hands to `scan` start at
`max(MIN_SIZE, stride)`, are strictly increasing and at most `opt_max_size`,
and on each of them `step` returns a strictly larger size; when `malloc`
returns a block the first size is tested.  For line size 64, stride 512 and
maximum size 4096 the run tests 512, 1024, 2048, 3072 and 4096 and ends. -/
theorem sweep_strictly_increasing (c : Config) (heap : Option Mem) (fuel n : Nat)
    (hok : parse_command_line c = true) (hr : c.InRange) (hfuel : 52 ≤ fuel) :
    ((run_test c heap fuel n).tested.Pairwise (fun a b => a < b) ∧
      (∀ s ∈ (run_test c heap fuel n).tested,
        s ≤ c.opt_max_size ∧ ∃ r, step c.opt_line_sz fuel s = some r ∧ s < r) ∧
      (∀ s, (run_test c heap fuel n).tested.head? = some s → s = max MIN_SIZE c.opt_stride) ∧
      (∀ mem, heap = some mem → c.opt_max_size ≤ PTRDIFF_MAX → 1 ≤ n →
        (run_test c heap fuel n).tested ≠ [])) ∧
      ∀ mem fuel1 n1, 4096 < fuel1 → 6 ≤ n1 →
        run_test cfg_scenario (some mem) fuel1 n1 = ⟨[512, 1024, 2048, 3072, 4096], true⟩ := by
  refine ⟨?_, fun mem fuel1 n1 h1 h2 => run_test_scenario mem fuel1 n1 h1 h2⟩
  obtain ⟨hL, hmin, hstr, _, _⟩ := parse_command_line_true c hok
  obtain ⟨hf1, hf2⟩ := first_size_ge c
  have hM : MIN_SIZE = 512 := rfl
  have hfs : first_size c ≤ c.opt_max_size := by
    unfold first_size; split <;> omega
  have hfirst : first_size c = max MIN_SIZE c.opt_stride := by
    unfold first_size
    split <;> omega
  refine ⟨?_, ?_, ?_, ?_⟩
  · unfold run_test malloc
    split
    · simp
    · rename_i mem hm
      split at hm
      · simp at hm
      · rename_i hle
        exact (run_loop_tested c fuel hfuel hL hr.1 (by omega) n _ _ (by omega)).2.1
  · intro s hs
    have hmax := run_test_tested_alloc c heap fuel n s hs
    unfold run_test at hs
    split at hs
    · simp at hs
    · have := (run_loop_tested c fuel hfuel hL hr.1 hmax n _ _ (by omega)).1 s hs
      exact ⟨this.2.1, this.2.2⟩
  · intro s hs
    rw [← hfirst]
    unfold run_test at hs
    split at hs
    · simp at hs
    · by_cases hmax : c.opt_max_size ≤ PTRDIFF_MAX
      · exact (run_loop_tested c fuel hfuel hL hr.1 hmax n _ _ (by omega)).2.2 s hs
      · rename_i mem hm
        unfold malloc at hm
        rw [if_pos (by omega)] at hm
        simp at hm
  · intro mem hh hmax hn
    subst hh
    exact run_test_nonempty c mem fuel n hmax hfs hn

/-- Witness of `sweep_strictly_increasing`: the scenario's configuration on a
block without pointers. -/
theorem sweep_strictly_increasing_witness :
    ((run_test cfg_scenario (some blank) 4097 6).tested.Pairwise (fun a b => a < b) ∧
      (∀ s ∈ (run_test cfg_scenario (some blank) 4097 6).tested,
        s ≤ cfg_scenario.opt_max_size ∧
          ∃ r, step cfg_scenario.opt_line_sz 4097 s = some r ∧ s < r) ∧
      (∀ s, (run_test cfg_scenario (some blank) 4097 6).tested.head? = some s →
        s = max MIN_SIZE cfg_scenario.opt_stride) ∧
      (∀ mem, some blank = some mem → cfg_scenario.opt_max_size ≤ PTRDIFF_MAX → 1 ≤ 6 →
        (run_test cfg_scenario (some blank) 4097 6).tested ≠ [])) ∧
      ∀ mem fuel1 n1, 4096 < fuel1 → 6 ≤ n1 →
        run_test cfg_scenario (some mem) fuel1 n1 = ⟨[512, 1024, 2048, 3072, 4096], true⟩ :=
  sweep_strictly_increasing cfg_scenario (some blank) 4097 6 (by decide) (by decide)
    (by decide)

/-- C2, as amended: for every accepted configuration, every size the sweep
hands to `scan` is positive and at most `opt_max_size`, every size after the
first is a multiple of the line size, and the first size `max(MIN_SIZE, stride)`
is a multiple of the line size exactly when the stride exceeds `MIN_SIZE` or
the line size divides `MIN_SIZE`; in that case every tested size is a positive
multiple of the line size.  This holds of every value of the loop header and
so of every size that a run of `run_test` hands to `scan`. -/
theorem sweep_sizes_multiple (c : Config) (sf n : Nat)
    (hok : parse_command_line c = true) (hr : c.InRange) :
    (c.opt_line_sz ∣ first_size c ↔ (MIN_SIZE < c.opt_stride ∨ c.opt_line_sz ∣ MIN_SIZE)) ∧
      (∀ x ∈ size_sequence c sf n (first_size c),
        0 < x ∧ x ≤ c.opt_max_size ∧ (x ≠ first_size c → c.opt_line_sz ∣ x)) ∧
      (c.opt_line_sz ∣ first_size c →
        ∀ x ∈ size_sequence c sf n (first_size c), 0 < x ∧ c.opt_line_sz ∣ x) ∧
      ∀ heap, ∀ x ∈ (run_test c heap sf n).tested,
        0 < x ∧ x ≤ c.opt_max_size ∧ (x ≠ first_size c → c.opt_line_sz ∣ x) ∧
          (c.opt_line_sz ∣ first_size c → c.opt_line_sz ∣ x) := by
  obtain ⟨hL, hmin, hstr, hdvd, _⟩ := parse_command_line_true c hok
  obtain ⟨hf1, hf2⟩ := first_size_ge c
  have hM : MIN_SIZE = 512 := rfl
  have key := size_sequence_mem c sf hr.1 n (first_size c) (by omega)
  have hseq : ∀ x ∈ size_sequence c sf n (first_size c),
      0 < x ∧ x ≤ c.opt_max_size ∧ (x ≠ first_size c → c.opt_line_sz ∣ x) := by
    intro x hx
    obtain ⟨h1, h2⟩ := key x hx
    refine ⟨?_, h1, ?_⟩
    · rcases h2 with rfl | ⟨h2, _⟩ <;> omega
    · intro hne
      rcases h2 with rfl | ⟨_, h3⟩
      · exact absurd rfl hne
      · exact h3
  refine ⟨?_, ?_, ?_, ?_⟩
  · unfold first_size
    split
    · rename_i h; simp [h, hdvd]
    · rename_i h; simp [h]
  · intro x hx
    obtain ⟨h1, h2⟩ := key x hx
    refine ⟨?_, h1, ?_⟩
    · rcases h2 with rfl | ⟨h2, _⟩ <;> omega
    · intro hne
      rcases h2 with rfl | ⟨_, h3⟩
      · exact absurd rfl hne
      · exact h3
  · intro hd x hx
    obtain ⟨h1, h2⟩ := key x hx
    rcases h2 with rfl | ⟨h2, h3⟩
    · exact ⟨by omega, hd⟩
    · exact ⟨by omega, h3⟩
  · intro heap x hx
    obtain ⟨h1, h2, h3⟩ := hseq x (run_test_subset c heap sf n x hx)
    refine ⟨h1, h2, h3, fun hd => ?_⟩
    by_cases hne : x = first_size c
    · rw [hne]; exact hd
    · exact h3 hne

/-- Witness of `sweep_sizes_multiple`: the scenario's configuration. -/
theorem sweep_sizes_multiple_witness :
    (cfg_scenario.opt_line_sz ∣ first_size cfg_scenario ↔
        (MIN_SIZE < cfg_scenario.opt_stride ∨ cfg_scenario.opt_line_sz ∣ MIN_SIZE)) ∧
      (∀ x ∈ size_sequence cfg_scenario 52 6 (first_size cfg_scenario),
        0 < x ∧ x ≤ cfg_scenario.opt_max_size ∧
          (x ≠ first_size cfg_scenario → cfg_scenario.opt_line_sz ∣ x)) ∧
      (cfg_scenario.opt_line_sz ∣ first_size cfg_scenario →
        ∀ x ∈ size_sequence cfg_scenario 52 6 (first_size cfg_scenario),
          0 < x ∧ cfg_scenario.opt_line_sz ∣ x) ∧
      ∀ heap, ∀ x ∈ (run_test cfg_scenario heap 52 6).tested,
        0 < x ∧ x ≤ cfg_scenario.opt_max_size ∧
          (x ≠ first_size cfg_scenario → cfg_scenario.opt_line_sz ∣ x) ∧
          (cfg_scenario.opt_line_sz ∣ first_size cfg_scenario → cfg_scenario.opt_line_sz ∣ x) :=
  sweep_sizes_multiple cfg_scenario 52 6 (by decide) (by decide)

/-- C2 as stated fails: the pointer-mode configuration with line size 96,
stride 96 and maximum size 512 is accepted, its sweep tests exactly the size
512, and 512 is not a multiple of 96. -/
theorem first_size_not_multiple :
    parse_command_line cfg_line96 = true ∧ cfg_line96.InRange ∧
      run_test cfg_line96 (some blank) 52 2 = ⟨[512], true⟩ ∧
      ¬ cfg_line96.opt_line_sz ∣ 512 := by
  decide

/-- C3, as amended: for every size `1 ≤ s < 2 ^ 63` and every non-zero line
size, `step` returns the least multiple of the line size that is at least the
candidate, where the candidate is `2 * s` below 1024, `s + 1024` from 1024 up
to 4095, and otherwise `s + q / 4` with `q` the least power of two strictly
greater than `s`.  With line size 64 the sizes generated from 512 are 512,
1024, 2048. -/
theorem step_growth_rule (L fuel s : Nat) (hL : 0 < L) (hL32 : L < UINT_MOD) (hs1 : 1 ≤ s)
    (hs : s < 2 ^ 63) (hfuel : 52 ≤ fuel) :
    (∃ q r, IsLeast {q | (∃ k, q = 2 ^ k) ∧ s < q} q ∧
        IsLeast {m | L ∣ m ∧ candidate s q ≤ m} r ∧ step L fuel s = some r) ∧
      size_sequence cfg_scenario fuel 3 512 = [512, 1024, 2048] := by
  constructor
  · obtain ⟨q, r, h1, h2, h3, _⟩ := step_some L fuel s hL hL32 hs1 hs hfuel
    exact ⟨q, r, h1, h3, h2⟩
  · simp [size_sequence, step, round_line, cfg_scenario, ULONG_MOD]

/-- Witness of `step_growth_rule`: line size 64 and size 4096. -/
theorem step_growth_rule_witness :
    (∃ q r, IsLeast {q | (∃ k, q = 2 ^ k) ∧ 4096 < q} q ∧
        IsLeast {m | 64 ∣ m ∧ candidate 4096 q ≤ m} r ∧ step 64 52 4096 = some r) ∧
      size_sequence cfg_scenario 52 3 512 = [512, 1024, 2048] :=
  step_growth_rule 64 52 4096 (by decide) (by decide) (by decide) (by decide) (by decide)

/-- C3 as stated fails at size 4096 with line size 64: the least power of two
that is at least 4096 is 4096 itself, the stated candidate `4096 + 4096 / 4`
rounds to 5120, and `step` returns 6144 and never 5120. -/
theorem step_uses_power_above :
    IsLeast {q | (∃ k, q = 2 ^ k) ∧ 4096 ≤ q} 4096 ∧
      IsLeast {m | 64 ∣ m ∧ candidate 4096 4096 ≤ m} 5120 ∧
      step 64 52 4096 = some 6144 ∧ ∀ fuel, step 64 fuel 4096 ≠ some 5120 := by
  refine ⟨⟨⟨⟨12, by norm_num⟩, le_refl _⟩, fun q hq => hq.2⟩, ⟨⟨by decide, by decide⟩, ?_⟩,
    by decide, ?_⟩
  · rintro m ⟨_, hm⟩
    have : candidate 4096 4096 = 5120 := by decide
    omega
  · intro fuel h
    have h52 : step 64 52 4096 = some 6144 := by decide
    rcases Nat.le_total fuel 52 with hle | hle
    · have := step_fuel_mono 64 fuel (52 - fuel) 4096 5120 h
      rw [show fuel + (52 - fuel) = 52 by omega, h52] at this
      simp at this
    · have := step_fuel_mono 64 52 (fuel - 52) 4096 6144 h52
      rw [show 52 + (fuel - 52) = fuel by omega, h] at this
      simp at this


/-! ## The barrier -/

theorem log_ok_split (log : List Event) (h : log_ok log) :
    ∀ pre rest id k, log = pre ++ Event.leave_start id k :: rest →
      Event.set_ready (!id) k ∈ rest := by
  induction log with
  | nil => intro pre rest id k he; simp at he
  | cons e l ih =>
    intro pre rest id k he
    cases pre with
    | nil =>
      simp only [List.nil_append, List.cons.injEq] at he
      obtain ⟨rfl, rfl⟩ := he
      exact h.1
    | cons p pre' =>
      simp only [List.cons_append, List.cons.injEq] at he
      obtain ⟨rfl, rfl⟩ := he
      apply ih _ pre' rest id k rfl
      cases e with
      | set_ready _ _ => exact h
      | leave_start _ _ => exact h.2


@[simp] theorem set_count_build : Pc.build.set_count = 0 := rfl
@[simp] theorem set_count_store_start : Pc.store_start.set_count = 0 := rfl
@[simp] theorem set_count_spin_start : Pc.spin_start.set_count = 1 := rfl
@[simp] theorem set_count_timed : Pc.timed.set_count = 1 := rfl
@[simp] theorem set_count_store_end : Pc.store_end.set_count = 1 := rfl
@[simp] theorem set_count_spin_end : Pc.spin_end.set_count = 1 := rfl
@[simp] theorem set_count_finished : Pc.finished.set_count = 0 := rfl
@[simp] theorem clear_count_build : Pc.build.clear_count = 0 := rfl
@[simp] theorem clear_count_store_start : Pc.store_start.clear_count = 0 := rfl
@[simp] theorem clear_count_spin_start : Pc.spin_start.clear_count = 0 := rfl
@[simp] theorem clear_count_timed : Pc.timed.clear_count = 0 := rfl
@[simp] theorem clear_count_store_end : Pc.store_end.clear_count = 0 := rfl
@[simp] theorem clear_count_spin_end : Pc.spin_end.clear_count = 1 := rfl
@[simp] theorem clear_count_finished : Pc.finished.clear_count = 0 := rfl

theorem inv_init : World.init.Inv := by
  refine ⟨?_, ?_, ?_, ?_, ?_, trivial⟩
  · intro id; exact Nat.zero_le _
  · intro id; rfl
  · intro id _; rfl
  · intro id h
    rcases h with h | h <;> cases h
  · intro id k
    simp [World.init, sets_done]

theorem inv_step_build_lt (n : Nat) (id : Bool) (w : World) (h : w.Inv)
    (hpc : (w.thread id).pc = Pc.build) (hlt : (w.thread id).scan_no < n) :
    (thread_step n id w).Inv := by
  obtain ⟨hbit, hflag, hidle, hbusy, hlogged, hord⟩ := h
  have t0 := hbit false
  have t1 := hbit true
  have f0 := hflag false
  have f1 := hflag true
  have i0 := hidle false
  have i1 := hidle true
  have b0 := hbusy false
  have b1 := hbusy true
  have l0 := hlogged false
  have l1 := hlogged true
  clear hbit hflag hidle hbusy hlogged
  simp only [thread_step, hpc, hlt, if_true]
  refine ⟨?_, ?_, ?_, ?_, ?_, hord⟩
  all_goals
    intro id'
    cases id <;> cases id'
  all_goals
    simp [Function.update, sets_done, clears_done, hpc] at *
  all_goals first | omega | tauto

theorem inv_step_build_ge (n : Nat) (id : Bool) (w : World) (h : w.Inv)
    (hpc : (w.thread id).pc = Pc.build) (hlt : ¬ (w.thread id).scan_no < n) :
    (thread_step n id w).Inv := by
  obtain ⟨hbit, hflag, hidle, hbusy, hlogged, hord⟩ := h
  have t0 := hbit false
  have t1 := hbit true
  have f0 := hflag false
  have f1 := hflag true
  have i0 := hidle false
  have i1 := hidle true
  have b0 := hbusy false
  have b1 := hbusy true
  have l0 := hlogged false
  have l1 := hlogged true
  clear hbit hflag hidle hbusy hlogged
  simp only [thread_step, hpc, hlt, if_false]
  refine ⟨?_, ?_, ?_, ?_, ?_, hord⟩
  all_goals
    intro id'
    cases id <;> cases id'
  all_goals
    simp [Function.update, sets_done, clears_done, hpc] at *
  all_goals first | omega | tauto

theorem inv_step_store_start (n : Nat) (id : Bool) (w : World) (h : w.Inv)
    (hpc : (w.thread id).pc = Pc.store_start) :
    (thread_step n id w).Inv := by
  obtain ⟨hbit, hflag, hidle, hbusy, hlogged, hord⟩ := h
  have t0 := hbit false
  have t1 := hbit true
  have f0 := hflag false
  have f1 := hflag true
  have i0 := hidle false
  have i1 := hidle true
  have b0 := hbusy false
  have b1 := hbusy true
  have l0 := hlogged false
  have l1 := hlogged true
  clear hbit hflag hidle hbusy hlogged
  simp only [thread_step, hpc]
  refine ⟨?_, ?_, ?_, ?_, ?_, hord⟩
  · intro id'
    cases id <;> cases id' <;> simp [Function.update] at * <;> omega
  · intro id'
    cases id <;> cases id' <;> simp [Function.update, sets_done, clears_done, hpc] at * <;>
      omega
  · intro id'
    cases id <;> cases id' <;> simp [Function.update, sets_done, clears_done, hpc] at * <;>
      tauto
  · intro id'
    cases id <;> cases id' <;> simp [Function.update, sets_done, clears_done, hpc] at *
  · intro id' k'
    cases id <;> cases id' <;>
      simp [Function.update, sets_done, hpc, l0, l1] <;> omega

theorem inv_step_spin_start_go (n : Nat) (id : Bool) (w : World) (h : w.Inv)
    (hpc : (w.thread id).pc = Pc.spin_start) (hrd : w.ready (!id) ≠ 0) :
    (thread_step n id w).Inv := by
  obtain ⟨hbit, hflag, hidle, hbusy, hlogged, hord⟩ := h
  have t0 := hbit false
  have t1 := hbit true
  have f0 := hflag false
  have f1 := hflag true
  have i0 := hidle false
  have i1 := hidle true
  have b0 := hbusy false
  have b1 := hbusy true
  have l0 := hlogged false
  have l1 := hlogged true
  clear hbit hflag hidle hbusy hlogged
  have hw : thread_step n id w =
      { w with
        thread := Function.update w.thread id ⟨(w.thread id).scan_no, Pc.timed⟩
        log := Event.leave_start id (w.thread id).scan_no :: w.log } := by
    simp only [thread_step, hpc]
    exact if_pos hrd
  rw [hw]
  refine ⟨?_, ?_, ?_, ?_, ?_, ?_⟩
  · intro id'
    cases id <;> cases id' <;> simp [Function.update] at * <;> omega
  · intro id'
    cases id <;> cases id' <;> simp [Function.update, sets_done, clears_done, hpc] at * <;>
      omega
  · intro id'
    cases id <;> cases id' <;> simp [Function.update, sets_done, clears_done, hpc] at * <;>
      tauto
  · intro id'
    cases id <;> cases id' <;> simp [Function.update, sets_done, clears_done, hpc] at * <;>
      first | omega | tauto
  · intro id' k'
    cases id <;> cases id' <;>
      simp [Function.update, sets_done, hpc, l0, l1]
  · refine ⟨?_, hord⟩
    cases id <;> simp [sets_done, clears_done, hpc, l0, l1] at * <;> omega

theorem inv_step_spin_start_wait (n : Nat) (id : Bool) (w : World) (h : w.Inv)
    (hpc : (w.thread id).pc = Pc.spin_start) (hrd : ¬ w.ready (!id) ≠ 0) :
    (thread_step n id w).Inv := by
  obtain ⟨hbit, hflag, hidle, hbusy, hlogged, hord⟩ := h
  have t0 := hbit false
  have t1 := hbit true
  have f0 := hflag false
  have f1 := hflag true
  have i0 := hidle false
  have i1 := hidle true
  have b0 := hbusy false
  have b1 := hbusy true
  have l0 := hlogged false
  have l1 := hlogged true
  clear hbit hflag hidle hbusy hlogged
  have hw : thread_step n id w = w := by
    simp only [thread_step, hpc]
    exact if_neg hrd
  rw [hw]
  exact ⟨fun
    | false => t0
    | true => t1, fun
    | false => f0
    | true => f1, fun
    | false => i0
    | true => i1, fun
    | false => b0
    | true => b1, fun
    | false => l0
    | true => l1, hord⟩

theorem inv_step_timed (n : Nat) (id : Bool) (w : World) (h : w.Inv)
    (hpc : (w.thread id).pc = Pc.timed) :
    (thread_step n id w).Inv := by
  obtain ⟨hbit, hflag, hidle, hbusy, hlogged, hord⟩ := h
  have t0 := hbit false
  have t1 := hbit true
  have f0 := hflag false
  have f1 := hflag true
  have i0 := hidle false
  have i1 := hidle true
  have b0 := hbusy false
  have b1 := hbusy true
  have l0 := hlogged false
  have l1 := hlogged true
  clear hbit hflag hidle hbusy hlogged
  simp only [thread_step, hpc]
  refine ⟨?_, ?_, ?_, ?_, ?_, hord⟩
  all_goals
    intro id'
    cases id <;> cases id'
  all_goals
    simp [Function.update, sets_done, clears_done, hpc] at *
  all_goals first | omega | tauto

theorem inv_step_store_end (n : Nat) (id : Bool) (w : World) (h : w.Inv)
    (hpc : (w.thread id).pc = Pc.store_end) :
    (thread_step n id w).Inv := by
  obtain ⟨hbit, hflag, hidle, hbusy, hlogged, hord⟩ := h
  have t0 := hbit false
  have t1 := hbit true
  have f0 := hflag false
  have f1 := hflag true
  have i0 := hidle false
  have i1 := hidle true
  have b0 := hbusy false
  have b1 := hbusy true
  have l0 := hlogged false
  have l1 := hlogged true
  clear hbit hflag hidle hbusy hlogged
  simp only [thread_step, hpc]
  refine ⟨?_, ?_, ?_, ?_, ?_, hord⟩
  all_goals
    intro id'
    cases id <;> cases id'
  all_goals
    simp [Function.update, sets_done, clears_done, hpc] at *
  all_goals first | omega | tauto

theorem inv_step_spin_end_go (n : Nat) (id : Bool) (w : World) (h : w.Inv)
    (hpc : (w.thread id).pc = Pc.spin_end) (hrd : w.ready id = 0) :
    (thread_step n id w).Inv := by
  obtain ⟨hbit, hflag, hidle, hbusy, hlogged, hord⟩ := h
  have t0 := hbit false
  have t1 := hbit true
  have f0 := hflag false
  have f1 := hflag true
  have i0 := hidle false
  have i1 := hidle true
  have b0 := hbusy false
  have b1 := hbusy true
  have l0 := hlogged false
  have l1 := hlogged true
  clear hbit hflag hidle hbusy hlogged
  simp only [thread_step, hpc, hrd, if_true]
  refine ⟨?_, ?_, ?_, ?_, ?_, hord⟩
  all_goals
    intro id'
    cases id <;> cases id'
  all_goals
    simp [Function.update, sets_done, clears_done, hpc] at *
  all_goals first | omega | tauto

theorem inv_step_spin_end_wait (n : Nat) (id : Bool) (w : World) (h : w.Inv)
    (hpc : (w.thread id).pc = Pc.spin_end) (hrd : ¬ w.ready id = 0) :
    (thread_step n id w).Inv := by
  obtain ⟨hbit, hflag, hidle, hbusy, hlogged, hord⟩ := h
  have t0 := hbit false
  have t1 := hbit true
  have f0 := hflag false
  have f1 := hflag true
  have i0 := hidle false
  have i1 := hidle true
  have b0 := hbusy false
  have b1 := hbusy true
  have l0 := hlogged false
  have l1 := hlogged true
  clear hbit hflag hidle hbusy hlogged
  simp only [thread_step, hpc, hrd, if_false]
  exact ⟨fun
    | false => t0
    | true => t1, fun
    | false => f0
    | true => f1, fun
    | false => i0
    | true => i1, fun
    | false => b0
    | true => b1, fun
    | false => l0
    | true => l1, hord⟩

theorem inv_step_finished (n : Nat) (id : Bool) (w : World) (h : w.Inv)
    (hpc : (w.thread id).pc = Pc.finished) :
    (thread_step n id w).Inv := by
  obtain ⟨hbit, hflag, hidle, hbusy, hlogged, hord⟩ := h
  have t0 := hbit false
  have t1 := hbit true
  have f0 := hflag false
  have f1 := hflag true
  have i0 := hidle false
  have i1 := hidle true
  have b0 := hbusy false
  have b1 := hbusy true
  have l0 := hlogged false
  have l1 := hlogged true
  clear hbit hflag hidle hbusy hlogged
  simp only [thread_step, hpc]
  exact ⟨fun
    | false => t0
    | true => t1, fun
    | false => f0
    | true => f1, fun
    | false => i0
    | true => i1, fun
    | false => b0
    | true => b1, fun
    | false => l0
    | true => l1, hord⟩

/-- Every step of either thread preserves the invariant. -/
theorem inv_step (n : Nat) (id : Bool) (w : World) (h : w.Inv) : (thread_step n id w).Inv := by
  cases hpc : (w.thread id).pc with
  | build =>
    by_cases hlt : (w.thread id).scan_no < n
    · exact inv_step_build_lt n id w h hpc hlt
    · exact inv_step_build_ge n id w h hpc hlt
  | store_start => exact inv_step_store_start n id w h hpc
  | spin_start =>
    by_cases hrd : w.ready (!id) ≠ 0
    · exact inv_step_spin_start_go n id w h hpc hrd
    · exact inv_step_spin_start_wait n id w h hpc hrd
  | timed => exact inv_step_timed n id w h hpc
  | store_end => exact inv_step_store_end n id w h hpc
  | spin_end =>
    by_cases hrd : w.ready id = 0
    · exact inv_step_spin_end_go n id w h hpc hrd
    · exact inv_step_spin_end_wait n id w h hpc hrd
  | finished => exact inv_step_finished n id w h hpc

theorem inv_run (n : Nat) (schedule : List Bool) :
    ∀ w, w.Inv → (run_schedule n schedule w).Inv := by
  induction schedule with
  | nil => intro w h; exact h
  | cons id rest ih =>
    intro w h
    exact ih _ (inv_step n id w h)

/-- C9: in every interleaving of the steps of the two threads, started with
both flags 0, whenever thread `id` has left the start spin-wait of its scan
number `k`, thread `id ^ 1` has executed the store `ready[id ^ 1] = 1` of its
own scan number `k` earlier in the execution. -/
theorem no_premature_release (nscans : Nat) (schedule : List Bool) (pre rest : List Event)
    (id : Bool) (k : Nat)
    (h : (run_schedule nscans schedule World.init).log
      = pre ++ Event.leave_start id k :: rest) :
    Event.set_ready (!id) k ∈ rest :=
  log_ok_split _ (inv_run nscans schedule World.init inv_init).ordered pre rest id k h

/-- Witness of `no_premature_release`: a schedule in which both threads
complete their first scan; thread 0 leaves its start spin-wait last. -/
theorem no_premature_release_witness :
    Event.set_ready (!false) 0
      ∈ [Event.leave_start true 0, Event.set_ready true 0, Event.set_ready false 0] :=
  no_premature_release 1 schedule_one_scan [] _ false 0 (by decide)


end Memtest
